import Mathlib

/-!
Shallow embedding of the tanstack-todo task store (`src/db/database.ts`,
`src/db/schema.ts`) and of the board drag-and-drop reorder protocol
(`src/App.tsx`), together with proofs about them.

Modelling conventions:
* identifiers (`crypto.randomUUID()` strings) are `Nat`;
* timestamps (`createdAt`, `updatedAt`, compared through
  `new Date(x).getTime()`) are `Nat` time values;
* `dueDate` is `Option Int` (absent / `null` collapse to `none`);
* `Array.prototype.sort` with a consistent comparator is a stable sort,
  modelled by `List.insertionSort` on the relation `comparator ≤ 0`;
* fallible operations (zod `parse` throwing, `updateTask` on a missing id)
  return `Except`; the store state is unchanged when they fail, as in the
  source every `throw` happens before the first mutation.
-/

namespace Todo

/-- The `taskStatusSchema = z.enum(['todo', 'in-progress', 'done'])` from schema.ts. -/
inductive TaskStatus
  | todo
  | inProgress
  | done
deriving DecidableEq, Repr

/-- The `taskPrioritySchema = z.enum(['low', 'medium', 'high'])` from schema.ts. -/
inductive TaskPriority
  | low
  | medium
  | high
deriving DecidableEq, Repr

/-- A task record as produced by `taskSchema` in schema.ts.  After a zod parse
every field is present (`description` defaults to `""`, `order` to `0`), so all
fields are total here. -/
structure Task where
  id : Nat
  title : String
  description : String
  status : TaskStatus
  priority : TaskPriority
  dueDate : Option Int
  order : Nat
  createdAt : Nat
  updatedAt : Nat
deriving DecidableEq, Repr

/-- The `statusOrder` record of database.ts: the lane rank used by `getTasks`. -/
def statusOrder : TaskStatus → Int
  | .todo => 0
  | .inProgress => 1
  | .done => 2

/-- The comparator of `normalizeStatusOrders` (the same comparator also
appears in `normalizeOrders`' unreachable loop): `order` ascending, then
`updatedAt` descending. -/
def laneCmp (a b : Task) : Int :=
  if (a.order : Int) - (b.order : Int) ≠ 0 then (a.order : Int) - (b.order : Int)
  else (b.updatedAt : Int) - (a.updatedAt : Int)

/-- The non-strict ordering induced by `laneCmp` (what a stable JS sort
realizes): `a` may stay before `b` iff the comparator is non-positive. -/
def laneLe (a b : Task) : Prop := laneCmp a b ≤ 0

instance : DecidableRel laneLe := fun a b => by
  unfold laneLe; infer_instance

instance : IsTotal Task laneLe :=
  ⟨fun a b => by
    unfold laneLe laneCmp
    split <;> split <;> omega⟩

instance : IsTrans Task laneLe :=
  ⟨fun a b c hab hbc => by
    unfold laneLe laneCmp at hab hbc ⊢
    split at hab <;> split at hbc <;> split <;> omega⟩

/-- The tasks of one status lane, in store-list order
(`this.tasks.filter((task) => task.status === status)`). -/
def laneTasks (s : TaskStatus) (tasks : List Task) : List Task :=
  tasks.filter (fun t => t.status == s)

/-- Stable sort by the lane comparator (the `.sort((a, b) => ...)` call in
`normalizeStatusOrders`). -/
def sortLane (l : List Task) : List Task :=
  List.insertionSort laneLe l

/-- One step of `normalizeStatusOrders`'s `forEach`:
`const idx = this.tasks.findIndex((t) => t.id === task.id); if (idx !== -1)
this.tasks[idx] = { ...this.tasks[idx], order: index }` — rewrite the `order`
of the first task carrying the given id. -/
def setOrderById (tasks : List Task) (i : Nat) (ord : Nat) : List Task :=
  match tasks with
  | [] => []
  | t :: ts => if t.id = i then { t with order := ord } :: ts else t :: setOrderById ts i ord

/-- The `ordered.forEach((task, index) => ...)` loop of `normalizeStatusOrders`:
assign ranks `i, i+1, ...` to the listed ids inside the accumulated task list. -/
def assignOrders : List Task → Nat → List Task → List Task
  | acc, _, [] => acc
  | acc, i, t :: ts => assignOrders (setOrderById acc t.id i) (i + 1) ts

/-- `normalizeStatusOrders` from database.ts: sort the lane by
(`order` asc, `updatedAt` desc) and write back dense ranks by id. -/
def normalizeStatusOrders (s : TaskStatus) (tasks : List Task) : List Task :=
  assignOrders tasks 0 (sortLane (laneTasks s tasks))

/-- `normalizeOrders` from database.ts.  Its body ends the line
`const normalized: Task[] = []` without a semicolon, and the next statement
begins with `(Object.keys(buckets) as TaskStatus[]).forEach(...)`.
Automatic semicolon insertion does not fire before a `(`, so the
initializer parses as a call of the empty array literal,
`[](Object.keys(buckets) as TaskStatus[]).forEach(...)`.  An array is not
callable, so after the (side-effect-free) bucketing loop the function
throws `TypeError` on every invocation; the bucket-sort/renumber/concat
loop in its source text is unreachable.  (App.tsx guards its own such
lines with a leading `;`; this one is unguarded.) -/
def normalizeOrders : List Task → Except String (List Task) :=
  fun _ => .error "TypeError: [] is not a function"

/-- `nextOrderForStatus` from database.ts: `0` on an empty lane, otherwise
`Math.max(...orders) + 1`.  On naturals the spread-max is the `max`-fold. -/
def nextOrderForStatus (s : TaskStatus) (tasks : List Task) : Nat :=
  let inStatus := laneTasks s tasks
  if inStatus.length = 0 then 0
  else ((inStatus.map Task.order).foldl max 0) + 1

/-- Post-parse shape of `taskInputSchema` (schema.ts): `id`, `createdAt`,
`updatedAt` omitted, `order` genuinely optional, the other defaults
(`description`, `status`, `priority`) already applied by zod. -/
structure TaskInput where
  title : String
  description : String := ""
  status : TaskStatus := .todo
  priority : TaskPriority := .medium
  dueDate : Option Int := none
  order : Option Nat := none
deriving DecidableEq, Repr

/-- `TaskUpdate = Partial<Omit<Task, 'id' | 'createdAt'>> & { id: string }`.
An `updatedAt` field of the update would be ignored by `updateTask` (the
merged record always stamps `now()` last), so it is not modelled. -/
structure TaskUpdate where
  id : Nat
  title : Option String := none
  description : Option String := none
  status : Option TaskStatus := none
  priority : Option TaskPriority := none
  dueDate : Option (Option Int) := none
  order : Option Nat := none
deriving DecidableEq, Repr

/-- The record built by `addTask`: fresh id, the parsed input's fields, the
supplied `order` or one past the lane's maximum, and both timestamps at
`now()`. -/
def newTask (input : TaskInput) (newId : Nat) (time : Nat) (tasks : List Task) : Task :=
  { id := newId
    title := input.title
    description := input.description
    status := input.status
    priority := input.priority
    dueDate := input.dueDate
    order := input.order.getD (nextOrderForStatus input.status tasks)
    createdAt := time
    updatedAt := time }

/-- `addTask` from database.ts.  `taskInputSchema.parse` throws on an empty
title (`z.string().min(1)`); the fresh id and the `now()` timestamp are
parameters.  Returns the new store list together with the returned `Task`
value (which the source captures before `normalizeStatusOrders` runs). -/
def addTask (tasks : List Task) (input : TaskInput) (newId : Nat) (time : Nat) :
    Except String (List Task × Task) :=
  if input.title = "" then .error "validation failed"
  else
    .ok (normalizeStatusOrders input.status (tasks ++ [newTask input newId time tasks]),
      newTask input newId time tasks)

/-- `this.tasks[idx] = merged` where `idx` is the first index whose id
matches (`findIndex`). -/
def replaceById (tasks : List Task) (i : Nat) (merged : Task) : List Task :=
  match tasks with
  | [] => []
  | t :: ts => if t.id = i then merged :: ts else t :: replaceById ts i merged

/-- The merged record built by `updateTask`.  The spread order in the source
makes the merged record take each supplied field, `status` defaulting to the
old status, `order` to the old order (a zod-parsed task always carries an
`order`, so the `nextOrderForStatus` fallback of that line is dead), and
`updatedAt := now()` stamped last. -/
def mergedTask (old : Task) (u : TaskUpdate) (time : Nat) : Task :=
  { old with
    title := u.title.getD old.title
    description := u.description.getD old.description
    status := u.status.getD old.status
    priority := u.priority.getD old.priority
    dueDate := u.dueDate.getD old.dueDate
    order := u.order.getD old.order
    updatedAt := time }

/-- `updateTask` from database.ts: find the record (`Task not found` throw
when absent), merge, validate (`taskSchema.parse` rejects an empty merged
title), write back in place, renormalize the old lane then the new lane. -/
def updateTask (tasks : List Task) (u : TaskUpdate) (time : Nat) :
    Except String (List Task × Task) :=
  match tasks.find? (fun t => t.id == u.id) with
  | none => .error "Task not found"
  | some old =>
    if (mergedTask old u time).title = "" then .error "validation failed"
    else
      .ok (normalizeStatusOrders (mergedTask old u time).status
            (normalizeStatusOrders old.status
              (replaceById tasks u.id (mergedTask old u time))),
        mergedTask old u time)

/-- `deleteTask` from database.ts: look up the record, filter it out, and if it
existed renormalize the lane it occupied.  Never fails. -/
def deleteTask (tasks : List Task) (i : Nat) : List Task :=
  let removed := tasks.find? (fun t => t.id == i)
  let remaining := tasks.filter (fun t => !(t.id == i))
  match removed with
  | some r => normalizeStatusOrders r.status remaining
  | none => remaining

/-- The comparator of `getTasks`: lane rank, then `order` ascending, then
`updatedAt` descending. -/
def listCmp (a b : Task) : Int :=
  if statusOrder a.status - statusOrder b.status ≠ 0 then
    statusOrder a.status - statusOrder b.status
  else if a.order ≠ b.order then (a.order : Int) - (b.order : Int)
  else (b.updatedAt : Int) - (a.updatedAt : Int)

/-- Non-strict ordering induced by `listCmp`. -/
def listLe (a b : Task) : Prop := listCmp a b ≤ 0

instance : DecidableRel listLe := fun a b => by
  unfold listLe; infer_instance

instance : IsTotal Task listLe :=
  ⟨fun a b => by
    unfold listLe listCmp
    split <;> split <;> omega⟩

instance : IsTrans Task listLe :=
  ⟨fun a b c hab hbc => by
    unfold listLe listCmp at hab hbc ⊢
    split at hab <;> split at hbc <;> split <;> omega⟩

/-- `getTasks` from database.ts: a stable sort of a copy of the store list. -/
def getTasks (tasks : List Task) : List Task :=
  List.insertionSort listLe tasks

/-- Status half of the view-facing filter spec: absent, `'all'`, or a status. -/
inductive StatusChoice
  | all
  | only (s : TaskStatus)
deriving DecidableEq, Repr

/-- Priority half of the view-facing filter spec. -/
inductive PriorityChoice
  | all
  | only (p : TaskPriority)
deriving DecidableEq, Repr

/-- `TaskFilter` from database.ts.  `none` models an absent (undefined, hence
falsy) field; `includeDone` is only truthy when it is `some true`. -/
structure TaskFilter where
  status : Option StatusChoice := none
  priority : Option PriorityChoice := none
  includeDone : Option Bool := none
  dueBefore : Option Int := none
deriving DecidableEq, Repr

/-- The predicate of `applyFilters`, clause for clause. -/
def keepTask (f : TaskFilter) (t : Task) : Bool :=
  if ¬ (f.includeDone.getD false) ∧ t.status = .done then false
  else if (match f.status with
            | some (.only s) => t.status != s
            | _ => false) then false
  else if (match f.priority with
            | some (.only p) => t.priority != p
            | _ => false) then false
  else
    match f.dueBefore with
    | some bound =>
      match t.dueDate with
      | none => false
      | some d => decide (d ≤ bound)
    | none => true

/-- `applyFilters` from database.ts. -/
def applyFilters (tasks : List Task) (f : TaskFilter) : List Task :=
  tasks.filter (keepTask f)

/-- What `this.storage.getItem(STORAGE_KEY)` can yield: the key can be
absent (`null`), hold the falsy empty string, hold a string that is not
valid JSON (so `JSON.parse` throws), hold valid JSON that fails
`z.array(taskSchema).safeParse`, or hold a valid serialized task array. -/
inductive Persisted
  | absent
  | emptyStr
  | malformed
  | mismatched
  | valid (tasks : List Task)
deriving Repr

/-- `bootstrap` from database.ts.  An absent or empty (falsy) value skips
the load, and a schema-mismatched payload fails `safeParse`; both fall
through to `persist()`, leaving `this.tasks` at its initial `[]`.
`JSON.parse(saved)` runs outside any catch, so a malformed JSON value
throws an uncaught `SyntaxError`.  A schema-valid payload is handed to
`this.normalizeOrders(parsed.data)`, which throws on every call, so that
branch also crashes instead of loading the collection. -/
def bootstrap (saved : Persisted) : Except String (List Task) :=
  match saved with
  | .absent => .ok []
  | .emptyStr => .ok []
  | .malformed => .error "SyntaxError: Unexpected token in JSON"
  | .mismatched => .ok []
  | .valid tasks => normalizeOrders tasks

/-- Store mutations, as issued by the view layer.  `add` carries the fresh id
produced by `crypto.randomUUID()` and the `now()` timestamp; `update` carries
its `now()` timestamp. -/
inductive StoreOp
  | add (newId : Nat) (input : TaskInput) (time : Nat)
  | update (u : TaskUpdate) (time : Nat)
  | del (id : Nat)
deriving Repr

/-- Effect of one store operation on the in-memory task list.  A validation or
not-found throw happens before any mutation in the source, so a failing
operation leaves the list unchanged. -/
def applyOp (tasks : List Task) : StoreOp → List Task
  | .add newId input time =>
    match addTask tasks input newId time with
    | .ok (tasks', _) => tasks'
    | .error _ => tasks
  | .update u time =>
    match updateTask tasks u time with
    | .ok (tasks', _) => tasks'
    | .error _ => tasks
  | .del i => deleteTask tasks i

/-- Effect of a sequence of store operations. -/
def applyOps (tasks : List Task) : List StoreOp → List Task
  | [] => tasks
  | op :: ops => applyOps (applyOp tasks op) ops

/-- An `add` operation must carry a genuinely fresh id
(`crypto.randomUUID()` collisions are not modelled). -/
def opFresh (tasks : List Task) : StoreOp → Bool
  | .add newId _ _ => decide (newId ∉ tasks.map Task.id)
  | _ => true

/-- Every `add` along the run uses an id fresh for the store state
it executes against. -/
def opsOk (tasks : List Task) : List StoreOp → Bool
  | [] => true
  | op :: ops => opFresh tasks op && opsOk (applyOp tasks op) ops

/-- The task list holds pairwise distinct ids
(§3: `id` is globally unique across the collection). -/
def NodupIds (tasks : List Task) : Prop := (tasks.map Task.id).Nodup

/-- The dense-order invariant for one lane: the multiset of `order` values of
the lane is exactly `{0, …, n-1}`, i.e. read off along the lane's display
order they form the dense, strictly increasing sequence `0‥n-1` with no gaps
or duplicates. -/
def laneDense (s : TaskStatus) (tasks : List Task) : Prop :=
  ((laneTasks s tasks).map Task.order).Perm (List.range (laneTasks s tasks).length)

/-- The dense-order invariant for every status lane. -/
def Dense (tasks : List Task) : Prop := ∀ s, laneDense s tasks

instance (s : TaskStatus) (tasks : List Task) : Decidable (laneDense s tasks) := by
  unfold laneDense; exact List.decidablePerm _ _

instance (tasks : List Task) : Decidable (Dense tasks) :=
  decidable_of_iff
    (laneDense .todo tasks ∧ laneDense .inProgress tasks ∧ laneDense .done tasks)
    (by
      constructor
      · rintro ⟨hA1, hA2, h₃⟩ s; cases s <;> assumption
      · intro h; exact ⟨h .todo, h .inProgress, h .done⟩)

instance (tasks : List Task) : Decidable (NodupIds tasks) := by
  unfold NodupIds; exact List.nodupDecidable _

/-- Lookup a stored record by id (first match, as `find` does). -/
def getById (tasks : List Task) (i : Nat) : Option Task :=
  tasks.find? (fun t => t.id == i)

/-- The position (counted from `i`) of the first task with the given id —
the rank that `assignOrders` starting at `i` writes into that task. -/
def rankFrom (i : Nat) (S : List Task) (x : Nat) : Option Nat :=
  match S with
  | [] => none
  | t :: ts => if t.id = x then some i else rankFrom (i + 1) ts x

/-!  The board / drag-and-drop reorder protocol of `src/App.tsx`. -/

/-- The comparator `(a, b) => a.order - b.order` used by `statusBuckets` and
by `persistBuckets`'s `originals`. -/
def orderLe (a b : Task) : Prop := (a.order : Int) - (b.order : Int) ≤ 0

instance : DecidableRel orderLe := fun a b => by
  unfold orderLe; infer_instance

instance : IsTotal Task orderLe :=
  ⟨fun a b => by unfold orderLe; omega⟩

instance : IsTrans Task orderLe :=
  ⟨fun a b c hab hbc => by unfold orderLe at hab hbc ⊢; omega⟩

/-- `statusBuckets` from App.tsx: bucket the (already filtered) task list by
status and stable-sort each bucket by `order` ascending. -/
def statusBuckets (filteredTasks : List Task) (s : TaskStatus) : List Task :=
  List.insertionSort orderLe (filteredTasks.filter (fun t => t.status == s))

/-- One `db.updateTask({ id, status, order })` call issued by
`persistBuckets`. -/
structure OrderUpdate where
  id : Nat
  status : TaskStatus
  order : Nat
deriving DecidableEq, Repr

/-- The `ordered.forEach((task, index) => ...)` loop of `persistBuckets`:
emit an update for every listed task whose snapshot (`tasksQuery.data`) record
is missing, has a different status, or has a different order than its index. -/
def updatesFrom (data : List Task) (s : TaskStatus) : Nat → List Task → List OrderUpdate
  | _, [] => []
  | i, t :: ts =>
    let rest := updatesFrom data s (i + 1) ts
    match data.find? (fun o => o.id == t.id) with
    | none => ⟨t.id, s, i⟩ :: rest
    | some o => if o.status ≠ s ∨ o.order ≠ i then ⟨t.id, s, i⟩ :: rest else rest

/-- One lane's pass of `persistBuckets`: the lane's snapshot records sorted by
`order`, minus the ids reserved by the new bucket, are re-appended after the
bucket, and updates are emitted against the snapshot. -/
def laneUpdates (data : List Task) (buckets : TaskStatus → List Task) (s : TaskStatus) :
    List OrderUpdate :=
  let originals := List.insertionSort orderLe (data.filter (fun t => t.status == s))
  let reservedIds := (buckets s).map Task.id
  let untouched := originals.filter (fun t => !(reservedIds.contains t.id))
  updatesFrom data s 0 (buckets s ++ untouched)

/-- `persistBuckets` from App.tsx: the three lane passes in
`['todo', 'in-progress', 'done']` order; the emitted updates are issued (and
hence applied by the store) in exactly this order. -/
def persistBucketUpdates (data : List Task) (buckets : TaskStatus → List Task) :
    List OrderUpdate :=
  laneUpdates data buckets .todo
    ++ laneUpdates data buckets .inProgress
    ++ laneUpdates data buckets .done

/-- `splice(i, 0, a)`: insert at index `i`, clamped to the array's end. -/
def spliceInsert (l : List Task) (i : Nat) (a : Task) : List Task :=
  l.take i ++ a :: l.drop i

/-- dnd-kit's `arrayMove`: remove the element at `i` and re-insert it at `j`
(of the shortened array, clamped).  The `none` branch is unreachable in
`handleDragEnd`, which only calls this with a valid `findIndex` result. -/
def arrayMove (l : List Task) (i j : Nat) : List Task :=
  match l.get? i with
  | none => l
  | some x => spliceInsert (l.eraseIdx i) j x

/-- A drop target of a completed drag: a lane column (`column-<status>`
droppable) or another task's card. -/
inductive DropTarget
  | column (s : TaskStatus)
  | card (id : Nat)
deriving DecidableEq, Repr

/-- The initial view filter state: `useState<TaskFilter>({ includeDone: true })`. -/
def defaultFilters : TaskFilter := { includeDone := some true }

/-- Resolution of a drop target to a lane and index, as `handleDragEnd`
computes it: end of a named column, or the board position of the hovered
card. -/
def resolveTarget (data filtered : List Task) (target : DropTarget) :
    Option (TaskStatus × Nat) :=
  match target with
  | .column s => some (s, (statusBuckets filtered s).length)
  | .card overId =>
    match data.find? (fun t => t.id == overId) with
    | none => none
    | some overTask =>
      some (overTask.status,
        (statusBuckets filtered overTask.status).findIdx (fun t => t.id == overId))

/-- The `nextBuckets` built by `handleDragEnd`: within one lane the moved
card travels by `arrayMove`; across lanes it is spliced out of the source
bucket and into the target bucket with its status rewritten; all other lanes
keep their buckets. -/
def dropBuckets (filtered : List Task) (sourceStatus targetStatus : TaskStatus)
    (fromIndex targetIndex : Nat) (movedTask : Task) : TaskStatus → List Task :=
  if sourceStatus = targetStatus then
    fun s =>
      if s = targetStatus then
        arrayMove (statusBuckets filtered sourceStatus) fromIndex targetIndex
      else statusBuckets filtered s
  else
    fun s =>
      if s = sourceStatus then (statusBuckets filtered sourceStatus).eraseIdx fromIndex
      else if s = targetStatus then
        spliceInsert (statusBuckets filtered targetStatus) targetIndex
          { movedTask with status := targetStatus }
      else statusBuckets filtered s

/-- `handleDragEnd` from App.tsx, reduced to the updates it issues:
`data` is the `tasksQuery.data` snapshot and the buckets are recomputed from
`applyFilters data filters` exactly as the `statusBuckets` memo does.
Returns the `db.updateTask` payloads in issue order (`[]` when the handler
returns early).  The dragged-over card is always on the board, so the
`findIdx` fallback for a card absent from its bucket is not distinguished. -/
def handleDragEnd (data : List Task) (filters : TaskFilter) (activeId : Nat)
    (over : Option DropTarget) : List OrderUpdate :=
  match over with
  | none => []
  | some target =>
    match data.find? (fun t => t.id == activeId) with
    | none => []
    | some activeTask =>
      let filtered := applyFilters data filters
      let sourceStatus := activeTask.status
      match resolveTarget data filtered target with
      | none => []
      | some (targetStatus, targetIndex) =>
        let sourceList := statusBuckets filtered sourceStatus
        match sourceList.findIdx? (fun t => t.id == activeId) with
        | none => []
        | some fromIndex =>
          if sourceStatus = targetStatus then
            if fromIndex = targetIndex then []
            else
              persistBucketUpdates data
                (dropBuckets filtered sourceStatus targetStatus fromIndex targetIndex
                  activeTask)
          else
            match sourceList.get? fromIndex with
            | none => []
            | some movedTask =>
              persistBucketUpdates data
                (dropBuckets filtered sourceStatus targetStatus fromIndex targetIndex
                  movedTask)

/-- Convert an issued `{ id, status, order }` payload to a store update. -/
def toTaskUpdate (u : OrderUpdate) : TaskUpdate :=
  { id := u.id, status := some u.status, order := some u.order }

/-- Run the issued `db.updateTask` calls against the store in issue order.
Each call stamps its own `now()`; the clock only moves forward, modelled by
consecutive times starting at `time`. -/
def runUpdates : List Task → List OrderUpdate → Nat → List Task
  | tasks, [], _ => tasks
  | tasks, u :: us, time =>
    match updateTask tasks (toTaskUpdate u) time with
    | .ok (tasks', _) => runUpdates tasks' us (time + 1)
    | .error _ => runUpdates tasks us (time + 1)

/-- Modelled from the spec's words (glossary "lane rank": the fixed display
ordering todo < in-progress < done), for comparison against the source's
`statusOrder`. -/
def laneRank : TaskStatus → Nat
  | .todo => 0
  | .inProgress => 1
  | .done => 2

/-- Modelled from the spec's words (§4.1 `list()`): sorted by lane rank, then
`order`, then most-recent-update-first as tie-break.  Used to check
`getTasks` against the specified ordering. -/
def specListLe (a b : Task) : Prop :=
  laneRank a.status < laneRank b.status
    ∨ (laneRank a.status = laneRank b.status
        ∧ (a.order < b.order ∨ (a.order = b.order ∧ b.updatedAt ≤ a.updatedAt)))

/-!  Theorems.  First, arithmetic readings of the three comparators. -/

theorem laneLe_iff (a b : Task) :
    laneLe a b ↔ a.order < b.order ∨ (a.order = b.order ∧ b.updatedAt ≤ a.updatedAt) := by
  unfold laneLe laneCmp
  split <;> omega

theorem listLe_iff (a b : Task) :
    listLe a b ↔ statusOrder a.status < statusOrder b.status
      ∨ (statusOrder a.status = statusOrder b.status
          ∧ (a.order < b.order
              ∨ (a.order = b.order ∧ b.updatedAt ≤ a.updatedAt))) := by
  unfold listLe listCmp
  split
  · omega
  · split <;> omega

theorem orderLe_iff (a b : Task) : orderLe a b ↔ a.order ≤ b.order := by
  unfold orderLe; omega

/-!  The pointwise effect of `normalizeStatusOrders`: when ids are unique,
rewriting the lane ranks by id is one simultaneous map over the store list. -/

/-- The rank-rewriting function applied pointwise by `normalizeStatusOrders`
relative to the sorted lane `S`. -/
def applyRank (S : List Task) (t : Task) : Task :=
  match rankFrom 0 S t.id with
  | some r => { t with order := r }
  | none => t

theorem setOrderById_eq_map {tasks : List Task} (h : NodupIds tasks) (i ord : Nat) :
    setOrderById tasks i ord
      = tasks.map (fun t => if t.id = i then { t with order := ord } else t) := by
  induction tasks with
  | nil => rfl
  | cons t ts ih =>
    unfold NodupIds at h
    simp only [List.map_cons, List.nodup_cons] at h
    obtain ⟨hni, hnd⟩ := h
    unfold setOrderById
    by_cases ht : t.id = i
    · rw [if_pos ht]
      simp only [List.map_cons, if_pos ht]
      congr 1
      have hts : ∀ u ∈ ts, (if u.id = i then { u with order := ord } else u) = u := by
        intro u hu
        rw [if_neg]
        intro hui
        exact hni (by rw [← ht] at hui; exact hui ▸ List.mem_map_of_mem Task.id hu)
      rw [List.map_congr_left hts, List.map_id']
    · rw [if_neg ht]
      simp only [List.map_cons, if_neg ht]
      exact congrArg _ (ih hnd)

theorem setOrderById_id_map (tasks : List Task) (i ord : Nat) :
    (setOrderById tasks i ord).map Task.id = tasks.map Task.id := by
  induction tasks with
  | nil => rfl
  | cons t ts ih =>
    unfold setOrderById
    by_cases ht : t.id = i
    · rw [if_pos ht]; rfl
    · rw [if_neg ht]; simpa using ih

theorem rankFrom_eq_none {S : List Task} {x : Nat} (h : x ∉ S.map Task.id) (i : Nat) :
    rankFrom i S x = none := by
  induction S generalizing i with
  | nil => rfl
  | cons t ts ih =>
    simp only [List.map_cons, List.mem_cons, not_or] at h
    unfold rankFrom
    rw [if_neg (fun ht => h.1 ht.symm)]
    exact ih h.2 _

theorem assignOrders_eq_map {tasks S : List Task} (h : NodupIds tasks)
    (hS : NodupIds S) (i : Nat) :
    assignOrders tasks i S
      = tasks.map (fun t =>
          match rankFrom i S t.id with
          | some r => { t with order := r }
          | none => t) := by
  induction S generalizing tasks i with
  | nil =>
    unfold assignOrders
    symm
    exact (List.map_congr_left fun t _ => rfl).trans (List.map_id' tasks)
  | cons u us ih =>
    unfold NodupIds at hS
    simp only [List.map_cons, List.nodup_cons] at hS
    obtain ⟨hui, hus⟩ := hS
    unfold assignOrders
    rw [setOrderById_eq_map h u.id i]
    have hids : NodupIds (tasks.map fun t => if t.id = u.id then { t with order := i } else t) := by
      unfold NodupIds
      rw [List.map_map]
      have : ∀ t ∈ tasks,
          (Task.id ∘ fun t => if t.id = u.id then { t with order := i } else t) t = Task.id t := by
        intro t _
        by_cases ht : t.id = u.id <;> simp [ht]
      rw [List.map_congr_left this]
      exact h
    rw [ih hids hus (i + 1), List.map_map]
    refine List.map_congr_left fun t _ => ?_
    simp only [Function.comp_apply]
    by_cases ht : t.id = u.id
    · rw [if_pos ht]
      have h1 : rankFrom i (u :: us) t.id = some i := by
        unfold rankFrom; rw [if_pos ht.symm]
      have h2 : rankFrom (i + 1) us t.id = none :=
        rankFrom_eq_none (by rw [ht]; exact hui) (i + 1)
      rw [h1, h2]
    · rw [if_neg ht]
      have h1 : rankFrom i (u :: us) t.id = rankFrom (i + 1) us t.id := by
        rw [show rankFrom i (u :: us) t.id
              = if u.id = t.id then some i else rankFrom (i + 1) us t.id from rfl,
          if_neg (fun hut => ht hut.symm)]
      rw [h1]

theorem normalize_eq_map {tasks : List Task} (h : NodupIds tasks) (s : TaskStatus) :
    normalizeStatusOrders s tasks
      = tasks.map (applyRank (sortLane (laneTasks s tasks))) := by
  unfold normalizeStatusOrders
  have hsub : NodupIds (laneTasks s tasks) := by
    unfold NodupIds laneTasks at *
    exact h.sublist (List.Sublist.map Task.id (List.filter_sublist tasks))
  have hperm : (sortLane (laneTasks s tasks)).Perm (laneTasks s tasks) :=
    List.perm_insertionSort laneLe _
  have hS : NodupIds (sortLane (laneTasks s tasks)) := by
    unfold NodupIds at *
    exact ((hperm.map Task.id).nodup_iff).2 hsub
  rw [assignOrders_eq_map h hS 0]
  rfl

theorem applyRank_id (S : List Task) (t : Task) : (applyRank S t).id = t.id := by
  unfold applyRank
  cases rankFrom 0 S t.id <;> rfl

theorem applyRank_status (S : List Task) (t : Task) : (applyRank S t).status = t.status := by
  unfold applyRank
  cases rankFrom 0 S t.id <;> rfl

theorem applyRank_eq_orderUpdate (S : List Task) (t : Task) :
    applyRank S t = { t with order := (applyRank S t).order } := by
  unfold applyRank
  cases rankFrom 0 S t.id <;> rfl

theorem applyRank_fields (S : List Task) (t : Task) :
    ∃ o, applyRank S t = { t with order := o } := by
  unfold applyRank
  cases rankFrom 0 S t.id
  · exact ⟨t.order, rfl⟩
  · exact ⟨_, rfl⟩

theorem applyRank_of_notMem {S : List Task} {t : Task}
    (h : t.id ∉ S.map Task.id) : applyRank S t = t := by
  unfold applyRank
  rw [rankFrom_eq_none h 0]

/-- Ids are untouched by per-lane normalization. -/
theorem normalize_ids {tasks : List Task} (h : NodupIds tasks) (s : TaskStatus) :
    (normalizeStatusOrders s tasks).map Task.id = tasks.map Task.id := by
  rw [normalize_eq_map h s, List.map_map]
  exact List.map_congr_left fun t _ => applyRank_id _ t

theorem normalize_nodupIds {tasks : List Task} (h : NodupIds tasks) (s : TaskStatus) :
    NodupIds (normalizeStatusOrders s tasks) := by
  unfold NodupIds
  rw [normalize_ids h s]
  exact h

/-- Bucketing commutes with an id/status-preserving map. -/
theorem laneTasks_map {f : Task → Task} (hf : ∀ t, (f t).status = t.status)
    (s : TaskStatus) (tasks : List Task) :
    laneTasks s (tasks.map f) = (laneTasks s tasks).map f := by
  unfold laneTasks
  rw [List.filter_map]
  congr 1
  exact List.filter_congr fun t _ => by rw [Function.comp_apply, hf]

/-- Members of a lane other than `s` carry an id foreign to lane `s`. -/
theorem id_notMem_lane {tasks : List Task} (h : NodupIds tasks) {t : Task}
    (ht : t ∈ tasks) {s : TaskStatus} (hs : t.status ≠ s) :
    t.id ∉ (laneTasks s tasks).map Task.id := by
  intro hmem
  obtain ⟨u, hu, hui⟩ := List.mem_map.1 hmem
  have hu' : u ∈ tasks ∧ (u.status == s) = true := List.mem_filter.1 hu
  have : u = t := List.inj_on_of_nodup_map h hu'.1 ht hui
  exact hs (by rw [← this]; exact beq_iff_eq.1 hu'.2)

/-- Lanes other than the normalized one are untouched, element for element. -/
theorem laneTasks_normalize_other {tasks : List Task} (h : NodupIds tasks)
    {s s' : TaskStatus} (hne : s' ≠ s) :
    laneTasks s' (normalizeStatusOrders s tasks) = laneTasks s' tasks := by
  rw [normalize_eq_map h s, laneTasks_map (applyRank_status _) s' tasks]
  refine (List.map_congr_left fun t ht => ?_).trans (List.map_id' _)
  have ht' : t ∈ tasks ∧ (t.status == s') = true := List.mem_filter.1 ht
  refine applyRank_of_notMem ?_
  have hts : t.status ≠ s := by
    rw [beq_iff_eq.1 ht'.2]; exact hne
  intro hmem
  exact id_notMem_lane h ht'.1 hts
    ((((List.perm_insertionSort laneLe (laneTasks s tasks)).map Task.id).mem_iff).1 hmem)

theorem laneTasks_normalize_self {tasks : List Task} (h : NodupIds tasks) (s : TaskStatus) :
    laneTasks s (normalizeStatusOrders s tasks)
      = (laneTasks s tasks).map (applyRank (sortLane (laneTasks s tasks))) := by
  rw [normalize_eq_map h s, laneTasks_map (applyRank_status _) s tasks]

theorem nodupIds_lane {tasks : List Task} (h : NodupIds tasks) (s : TaskStatus) :
    NodupIds (laneTasks s tasks) := by
  unfold NodupIds laneTasks at *
  exact h.sublist (List.Sublist.map Task.id (List.filter_sublist tasks))

theorem nodupIds_sortLane {l : List Task} (h : NodupIds l) : NodupIds (sortLane l) := by
  unfold NodupIds at *
  exact (((List.perm_insertionSort laneLe l).map Task.id).nodup_iff).2 h

theorem rankFrom_isSome {S : List Task} {x : Nat} (h : x ∈ S.map Task.id) (i : Nat) :
    ∃ r, rankFrom i S x = some r := by
  induction S generalizing i with
  | nil => simp at h
  | cons u us ih =>
    by_cases hx : u.id = x
    · exact ⟨i, by rw [show rankFrom i (u :: us) x
        = if u.id = x then some i else rankFrom (i + 1) us x from rfl, if_pos hx]⟩
    · have : x ∈ us.map Task.id := by
        simp only [List.map_cons, List.mem_cons] at h
        exact h.resolve_left (fun hh => hx hh.symm)
      obtain ⟨r, hr⟩ := ih this (i + 1)
      exact ⟨r, by rw [show rankFrom i (u :: us) x
        = if u.id = x then some i else rankFrom (i + 1) us x from rfl, if_neg hx, hr]⟩

/-- Reading the assigned ranks back along the ranked list enumerates
`i, i+1, …` once each. -/
theorem rank_enum {S : List Task} (h : NodupIds S) (i : Nat) :
    S.map (fun u => rankFrom i S u.id) = (List.range' i S.length).map some := by
  induction S generalizing i with
  | nil => rfl
  | cons u us ih =>
    unfold NodupIds at h
    simp only [List.map_cons, List.nodup_cons] at h
    obtain ⟨hui, hus⟩ := h
    simp only [List.map_cons, List.length_cons, List.range'_succ]
    have hhead : rankFrom i (u :: us) u.id = some i := by
      rw [show rankFrom i (u :: us) u.id
        = if u.id = u.id then some i else rankFrom (i + 1) us u.id from rfl, if_pos rfl]
    have htail : us.map (fun v => rankFrom i (u :: us) v.id)
        = List.map some (List.range' (i + 1) us.length) := by
      rw [← ih hus (i + 1)]
      refine List.map_congr_left fun v hv => ?_
      rw [show rankFrom i (u :: us) v.id
        = if u.id = v.id then some i else rankFrom (i + 1) us v.id from rfl,
        if_neg (fun he => hui (by rw [he]; exact List.mem_map_of_mem Task.id hv))]
    rw [hhead, htail]

/-- The normalized lane's `order` values are exactly `{0, …, n-1}`. -/
theorem laneDense_normalize_self {tasks : List Task} (h : NodupIds tasks) (s : TaskStatus) :
    laneDense s (normalizeStatusOrders s tasks) := by
  have hlane := laneTasks_normalize_self h s
  set L := laneTasks s tasks with hL
  set S := sortLane L with hSdef
  have hperm : S.Perm L := List.perm_insertionSort laneLe L
  have hSn : NodupIds S := nodupIds_sortLane (nodupIds_lane h s)
  unfold laneDense
  rw [hlane, List.map_map, List.length_map]
  have hlen : L.length = S.length := hperm.length_eq.symm
  have hmem : ∀ u ∈ L, (Task.order ∘ applyRank S) u = (fun u => (rankFrom 0 S u.id).getD 0) u := by
    intro u hu
    obtain ⟨r, hr⟩ := rankFrom_isSome (List.mem_map_of_mem Task.id (hperm.mem_iff.2 hu)) 0
    simp only [Function.comp_apply]
    unfold applyRank
    rw [hr]
    rfl
  rw [List.map_congr_left hmem]
  have hrange : S.map (fun u => (rankFrom 0 S u.id).getD 0) = List.range S.length := by
    have h2 : S.map (fun u => (rankFrom 0 S u.id).getD 0)
        = (S.map (fun u => rankFrom 0 S u.id)).map (fun o => o.getD 0) := by
      rw [List.map_map]
      rfl
    rw [h2, rank_enum hSn 0, List.map_map, List.range_eq_range']
    exact (List.map_congr_left fun r _ => rfl).trans (List.map_id' _)
  refine ((hperm.map _).symm).trans ?_
  rw [hrange, hlen]

/-!  When a key function agrees with the lane comparator and enumerates
`0‥n-1`, the stable sort puts the task with key `j` at position `j`, so
normalization assigns every lane task exactly its key. -/

theorem sortLane_map_key {L : List Task} {key : Task → Nat}
    (hk : ∀ a ∈ L, ∀ b ∈ L, laneLe a b ↔ key a ≤ key b)
    (hperm : (L.map key).Perm (List.range L.length)) :
    (sortLane L).map key = List.range L.length := by
  have hp : (sortLane L).Perm L := List.perm_insertionSort laneLe L
  have hsorted : List.Sorted laneLe (sortLane L) := List.sorted_insertionSort laneLe L
  have hpw : List.Pairwise (fun a b => key a ≤ key b) (sortLane L) :=
    List.Pairwise.imp_of_mem
      (fun ha hb hr => (hk _ (hp.subset ha) _ (hp.subset hb)).1 hr) hsorted
  have hsorted' : List.Sorted (· ≤ ·) ((sortLane L).map key) :=
    (List.pairwise_map).2 hpw
  have hperm' : ((sortLane L).map key).Perm (List.range L.length) :=
    (hp.map key).trans hperm
  exact List.eq_of_perm_of_sorted hperm' hsorted' (List.sorted_le_range L.length)

theorem rankFrom_get {S : List Task} (h : NodupIds S) :
    ∀ (i j : Nat) (hj : j < S.length), rankFrom i S (S.get ⟨j, hj⟩).id = some (i + j) := by
  induction S with
  | nil => intro i j hj; simp at hj
  | cons u us ih =>
    intro i j hj
    unfold NodupIds at h
    simp only [List.map_cons, List.nodup_cons] at h
    obtain ⟨hui, hus⟩ := h
    match j with
    | 0 =>
      rw [show (u :: us).get ⟨0, hj⟩ = u from rfl,
        show rankFrom i (u :: us) u.id
          = if u.id = u.id then some i else rankFrom (i + 1) us u.id from rfl,
        if_pos rfl]
      rfl
    | j + 1 =>
      have hj' : j < us.length := by
        simp only [List.length_cons] at hj; omega
      have hg : (u :: us).get ⟨j + 1, hj⟩ = us.get ⟨j, hj'⟩ := rfl
      have hne : u.id ≠ (us.get ⟨j, hj'⟩).id := fun he =>
        hui (he ▸ List.mem_map_of_mem Task.id (us.get_mem _ _))
      rw [hg, show rankFrom i (u :: us) (us.get ⟨j, hj'⟩).id
          = if u.id = (us.get ⟨j, hj'⟩).id then some i
            else rankFrom (i + 1) us (us.get ⟨j, hj'⟩).id from rfl,
        if_neg hne, ih hus (i + 1) j hj']
      congr 1
      omega

/-- Core positional lemma: under the key hypotheses, normalization rewrites
every lane member's `order` to exactly its key. -/
theorem applyRank_eq_key {tasks : List Task} (h : NodupIds tasks) (s : TaskStatus)
    {key : Task → Nat}
    (hk : ∀ a ∈ laneTasks s tasks, ∀ b ∈ laneTasks s tasks, laneLe a b ↔ key a ≤ key b)
    (hperm : ((laneTasks s tasks).map key).Perm (List.range (laneTasks s tasks).length)) :
    ∀ t ∈ laneTasks s tasks,
      applyRank (sortLane (laneTasks s tasks)) t = { t with order := key t } := by
  intro t ht
  set L := laneTasks s tasks with hL
  set S := sortLane L with hS
  have hp : S.Perm L := List.perm_insertionSort laneLe L
  have hSn : NodupIds S := nodupIds_sortLane (nodupIds_lane h s)
  have hkey : S.map key = List.range L.length := sortLane_map_key hk hperm
  have htS : t ∈ S := hp.mem_iff.2 ht
  obtain ⟨⟨j, hj⟩, hget⟩ := List.mem_iff_get.1 htS
  have hkt : key t = j := by
    have hj2 : j < (S.map key).length := by simpa using hj
    have h1 : (S.map key)[j] = key (S.get ⟨j, hj⟩) := by
      simp [List.getElem_map, List.get_eq_getElem]
    have h3 : j < (List.range L.length).length := by
      rw [← hkey]; exact hj2
    have h2 : (S.map key)[j] = j := by
      rw [List.getElem_of_eq hkey hj2]
      simp
    rw [hget] at h1
    rw [h1] at h2
    exact h2
  have hrank : rankFrom 0 S t.id = some j := by
    have := rankFrom_get hSn 0 j hj
    rw [hget] at this
    simpa using this
  unfold applyRank
  rw [hrank, hkt]

/-!  Lookup and list-surgery lemmas used to read off what the operations do. -/

theorem getById_map {f : Task → Task} (hf : ∀ t, (f t).id = t.id)
    {tasks : List Task} (h : NodupIds tasks) {t : Task} (ht : t ∈ tasks) :
    getById (tasks.map f) t.id = some (f t) := by
  induction tasks with
  | nil => simp at ht
  | cons u us ih =>
    unfold NodupIds at h
    simp only [List.map_cons, List.nodup_cons] at h
    obtain ⟨hui, hus⟩ := h
    unfold getById
    rcases List.mem_cons.1 ht with rfl | hm
    · rw [List.map_cons, List.find?_cons_of_pos _ (by simp [hf])]
    · have hne : u.id ≠ t.id := fun he =>
        hui (he ▸ List.mem_map_of_mem Task.id hm)
      rw [List.map_cons, List.find?_cons_of_neg _ (by simp [hf, hne])]
      exact ih hus hm

theorem getById_of_mem {tasks : List Task} (h : NodupIds tasks) {t : Task}
    (ht : t ∈ tasks) : getById tasks t.id = some t := by
  have h' := @getById_map (fun t => t) (fun _ => rfl) tasks h t ht
  rw [List.map_id'] at h'
  exact h'

theorem laneTasks_append (s : TaskStatus) (l₁ l₂ : List Task) :
    laneTasks s (l₁ ++ l₂) = laneTasks s l₁ ++ laneTasks s l₂ := by
  unfold laneTasks
  exact List.filter_append _ _

theorem laneTasks_singleton_self (s : TaskStatus) {t : Task} (h : t.status = s) :
    laneTasks s [t] = [t] := by
  unfold laneTasks
  simp [h]

theorem laneTasks_singleton_other (s : TaskStatus) {t : Task} (h : t.status ≠ s) :
    laneTasks s [t] = [] := by
  unfold laneTasks
  simp [h]

theorem replaceById_of_find {tasks : List Task} {i : Nat} {old : Task} (merged : Task)
    (hfind : tasks.find? (fun t => t.id == i) = some old) :
    ∃ l₁ l₂, tasks = l₁ ++ old :: l₂ ∧ replaceById tasks i merged = l₁ ++ merged :: l₂
      ∧ (∀ t ∈ l₁, t.id ≠ i) ∧ old.id = i := by
  induction tasks with
  | nil => simp at hfind
  | cons u us ih =>
    by_cases hu : u.id = i
    · rw [List.find?_cons_of_pos _ (by simpa using hu)] at hfind
      obtain rfl := Option.some.inj hfind
      exact ⟨[], us, rfl, by unfold replaceById; rw [if_pos hu]; rfl, by simp, hu⟩
    · rw [List.find?_cons_of_neg _ (by simpa using hu)] at hfind
      obtain ⟨l₁, l₂, h1, h2, h3, h4⟩ := ih hfind
      refine ⟨u :: l₁, l₂, by rw [h1]; rfl, ?_, ?_, h4⟩
      · unfold replaceById
        rw [if_neg hu, h2]
        rfl
      · intro t htm
        rcases List.mem_cons.1 htm with rfl | hm
        · exact hu
        · exact h3 t hm

theorem find?_eq_none_of_ids {tasks : List Task} {i : Nat}
    (h : i ∉ tasks.map Task.id) : tasks.find? (fun t => t.id == i) = none := by
  rw [List.find?_eq_none]
  intro t htm hbeq
  exact h (beq_iff_eq.1 hbeq ▸ List.mem_map_of_mem Task.id htm)

/-- Normalizing one lane re-establishes its density and keeps the density of
every other lane. -/
theorem dense_after_normalize {tasks : List Task} (h : NodupIds tasks) (s : TaskStatus)
    (hD : ∀ s', s' ≠ s → laneDense s' tasks) :
    Dense (normalizeStatusOrders s tasks) := by
  intro s'
  by_cases hss : s' = s
  · subst hss
    exact laneDense_normalize_self h s'
  · unfold laneDense
    rw [laneTasks_normalize_other h hss]
    exact hD s' hss

/-!  The three store operations preserve id-uniqueness and the dense-order
invariant. -/

theorem laneTasks_filter (s : TaskStatus) (p : Task → Bool) (tasks : List Task) :
    laneTasks s (tasks.filter p) = (laneTasks s tasks).filter p := by
  unfold laneTasks
  rw [List.filter_filter, List.filter_filter]
  exact List.filter_congr fun t _ => by rw [Bool.and_comm]

theorem applyOp_add_ok {tasks : List Task} {input : TaskInput} {newId time : Nat}
    (ht : ¬ input.title = "") :
    applyOp tasks (.add newId input time)
      = normalizeStatusOrders input.status (tasks ++ [newTask input newId time tasks]) := by
  unfold applyOp addTask
  dsimp only
  rw [if_neg ht]

theorem applyOp_add_err {tasks : List Task} {input : TaskInput} {newId time : Nat}
    (ht : input.title = "") :
    applyOp tasks (.add newId input time) = tasks := by
  unfold applyOp addTask
  dsimp only
  rw [if_pos ht]

theorem nodupIds_append_fresh {tasks : List Task} (h : NodupIds tasks) {task : Task}
    (hf : task.id ∉ tasks.map Task.id) : NodupIds (tasks ++ [task]) := by
  unfold NodupIds at *
  rw [List.map_append]
  rw [List.nodup_append]
  exact ⟨h, List.nodup_singleton _, by simpa [List.disjoint_singleton] using hf⟩

theorem add_preserves {tasks : List Task} (h : NodupIds tasks) (hD : Dense tasks)
    {newId time : Nat} {input : TaskInput} (hf : newId ∉ tasks.map Task.id) :
    NodupIds (applyOp tasks (.add newId input time))
      ∧ Dense (applyOp tasks (.add newId input time)) := by
  by_cases ht : input.title = ""
  · rw [applyOp_add_err ht]
    exact ⟨h, hD⟩
  · rw [applyOp_add_ok ht]
    have hn : NodupIds (tasks ++ [newTask input newId time tasks]) :=
      nodupIds_append_fresh h hf
    refine ⟨normalize_nodupIds hn _, dense_after_normalize hn _ ?_⟩
    intro s' hs'
    unfold laneDense
    rw [laneTasks_append, laneTasks_singleton_other s' (by simpa [newTask] using fun he => hs' he.symm),
      List.append_nil]
    exact hD s'

theorem del_preserves {tasks : List Task} (h : NodupIds tasks) (hD : Dense tasks)
    (i : Nat) :
    NodupIds (applyOp tasks (.del i)) ∧ Dense (applyOp tasks (.del i)) := by
  unfold applyOp deleteTask
  dsimp only
  have hnf : NodupIds (tasks.filter (fun t => !(t.id == i))) := by
    unfold NodupIds at *
    exact h.sublist (List.Sublist.map Task.id (List.filter_sublist tasks))
  cases hfind : tasks.find? (fun t => t.id == i) with
  | none =>
    have heq : tasks.filter (fun t => !(t.id == i)) = tasks := by
      refine List.filter_eq_self.2 fun t htm => ?_
      have := List.find?_eq_none.1 hfind t htm
      simpa using this
    rw [heq]
    exact ⟨h, hD⟩
  | some r =>
    have hrmem : r ∈ tasks := List.mem_of_find?_eq_some hfind
    have hrid : r.id = i := by
      have := List.find?_some hfind
      simpa using this
    refine ⟨normalize_nodupIds hnf _, dense_after_normalize hnf _ ?_⟩
    intro s' hs'
    unfold laneDense
    rw [laneTasks_filter]
    have : (laneTasks s' tasks).filter (fun t => !(t.id == i)) = laneTasks s' tasks := by
      refine List.filter_eq_self.2 fun t htm => ?_
      have htm' : t ∈ tasks ∧ (t.status == s') = true := List.mem_filter.1 htm
      have hne : t.id ≠ i := by
        intro he
        have htr : t = r := List.inj_on_of_nodup_map h htm'.1 hrmem (he.trans hrid.symm)
        have hts : t.status = s' := beq_iff_eq.1 htm'.2
        rw [htr] at hts
        exact hs' hts.symm
      simpa using hne
    rw [this]
    exact hD s'

theorem update_preserves {tasks : List Task} (h : NodupIds tasks) (hD : Dense tasks)
    (u : TaskUpdate) (time : Nat) :
    NodupIds (applyOp tasks (.update u time)) ∧ Dense (applyOp tasks (.update u time)) := by
  unfold applyOp updateTask
  dsimp only
  cases hfind : tasks.find? (fun t => t.id == u.id) with
  | none => exact ⟨h, hD⟩
  | some old =>
    dsimp only
    by_cases htitle : (mergedTask old u time).title = ""
    · rw [if_pos htitle]
      exact ⟨h, hD⟩
    · rw [if_neg htitle]
      obtain ⟨l₁, l₂, hsplit, hrepl, _, hoid⟩ :=
        replaceById_of_find (mergedTask old u time) hfind
      have hmid : (mergedTask old u time).id = old.id := rfl
      have hids : (replaceById tasks u.id (mergedTask old u time)).map Task.id
          = tasks.map Task.id := by
        rw [hrepl, hsplit]
        simp [hmid, hoid]
      have hA1 : NodupIds (replaceById tasks u.id (mergedTask old u time)) := by
        unfold NodupIds
        rw [hids]
        exact h
      have hA2 : NodupIds (normalizeStatusOrders old.status
          (replaceById tasks u.id (mergedTask old u time))) := normalize_nodupIds hA1 _
      have hlane_other : ∀ s', s' ≠ old.status → s' ≠ (mergedTask old u time).status →
          laneTasks s' (replaceById tasks u.id (mergedTask old u time))
            = laneTasks s' tasks := by
        intro s' hso hsm
        rw [hrepl, hsplit]
        have e1 : old :: l₂ = [old] ++ l₂ := rfl
        have e2 : mergedTask old u time :: l₂ = [mergedTask old u time] ++ l₂ := rfl
        rw [e1, e2, ← List.append_assoc, ← List.append_assoc,
          laneTasks_append, laneTasks_append, laneTasks_append, laneTasks_append,
          laneTasks_singleton_other s' (fun he => absurd he.symm hsm),
          laneTasks_singleton_other s' (fun he => absurd he.symm hso)]
      refine ⟨normalize_nodupIds hA2 _, dense_after_normalize hA2 _ ?_⟩
      intro s' hs'
      by_cases hso : s' = old.status
      · subst hso
        exact laneDense_normalize_self hA1 _
      · unfold laneDense
        rw [laneTasks_normalize_other hA1 hso, hlane_other s' hso hs']
        exact hD s'

theorem applyOp_preserves {tasks : List Task} (h : NodupIds tasks) (hD : Dense tasks)
    (op : StoreOp) (hop : opFresh tasks op = true) :
    NodupIds (applyOp tasks op) ∧ Dense (applyOp tasks op) := by
  match op with
  | .add newId input time =>
    exact add_preserves h hD (of_decide_eq_true hop)
  | .update u time => exact update_preserves h hD u time
  | .del i => exact del_preserves h hD i

theorem applyOps_preserves {tasks : List Task} (h : NodupIds tasks) (hD : Dense tasks)
    {ops : List StoreOp} (hok : opsOk tasks ops = true) :
    NodupIds (applyOps tasks ops) ∧ Dense (applyOps tasks ops) := by
  induction ops generalizing tasks with
  | nil => exact ⟨h, hD⟩
  | cons op ops ih =>
    unfold opsOk at hok
    rw [Bool.and_eq_true] at hok
    obtain ⟨hop, hoks⟩ := hok
    obtain ⟨h', hD'⟩ := applyOp_preserves h hD op hop
    exact ih h' hD' hoks

theorem opsOk_append_left {tasks : List Task} {ops₁ ops₂ : List StoreOp}
    (hok : opsOk tasks (ops₁ ++ ops₂) = true) : opsOk tasks ops₁ = true := by
  induction ops₁ generalizing tasks with
  | nil => rfl
  | cons op ops ih =>
    unfold opsOk at hok ⊢
    rw [List.cons_append] at hok
    rw [Bool.and_eq_true] at hok ⊢
    exact ⟨hok.1, ih hok.2⟩

/-- C1: for every sequence of addTask / updateTask / deleteTask operations
starting from a store state with unique ids satisfying the dense-order
invariant (each add using a genuinely fresh id), after each operation of the
sequence completes, the `order` values within every status lane — todo,
in-progress and done — are exactly the dense zero-based set `{0, …, n-1}`
with no gaps or duplicates, i.e. read in display order they are the strictly
increasing sequence `0‥n-1`. -/
theorem C1_dense_order_invariant {tasks : List Task} (h : NodupIds tasks)
    (hD : Dense tasks) {ops₁ ops₂ : List StoreOp}
    (hok : opsOk tasks (ops₁ ++ ops₂) = true) :
    Dense (applyOps tasks ops₁) :=
  (applyOps_preserves h hD (opsOk_append_left hok)).2

/-- Witness for C1: add two tasks, move one across lanes with an explicit
order, then observe the invariant after the prefix. -/
theorem C1_dense_order_invariant_witness :
    NodupIds ([] : List Task) ∧ Dense ([] : List Task)
      ∧ opsOk []
          ([StoreOp.add 1 { title := "a" } 10, StoreOp.add 2 { title := "b" } 11]
            ++ [StoreOp.update { id := 1, status := some TaskStatus.done, order := some 0 } 12,
                StoreOp.del 2]) = true
      ∧ Dense (applyOps []
          [StoreOp.add 1 { title := "a" } 10, StoreOp.add 2 { title := "b" } 11]) :=
  ⟨by decide, by decide, by decide,
    @C1_dense_order_invariant [] (by decide) (by decide)
      [StoreOp.add 1 { title := "a" } 10, StoreOp.add 2 { title := "b" } 11]
      [StoreOp.update { id := 1, status := some TaskStatus.done, order := some 0 } 12,
        StoreOp.del 2]
      (by decide)⟩

/-!  Fixpoint facts: a lane whose orders are already dense and duplicate-free
is left untouched by normalization. -/

theorem laneLe_iff_order_of_nodup {L : List Task} (hnd : (L.map Task.order).Nodup) :
    ∀ a ∈ L, ∀ b ∈ L, laneLe a b ↔ a.order ≤ b.order := by
  intro a ha b hb
  rcases Nat.lt_trichotomy a.order b.order with hlt | heq | hgt
  · rw [laneLe_iff]; omega
  · have hab : a = b := List.inj_on_of_nodup_map hnd ha hb heq
    subst hab
    rw [laneLe_iff]; omega
  · rw [laneLe_iff]; omega

theorem orders_nodup_of_laneDense {tasks : List Task} {s : TaskStatus}
    (hD : laneDense s tasks) : ((laneTasks s tasks).map Task.order).Nodup := by
  unfold laneDense at hD
  exact hD.nodup_iff.2 (List.nodup_range _)

theorem order_lt_of_mem_lane {tasks : List Task} {s : TaskStatus}
    (hD : laneDense s tasks) {t : Task} (ht : t ∈ laneTasks s tasks) :
    t.order < (laneTasks s tasks).length := by
  unfold laneDense at hD
  have : t.order ∈ (laneTasks s tasks).map Task.order := List.mem_map_of_mem Task.order ht
  have := hD.mem_iff.1 this
  exact List.mem_range.1 this

theorem applyRank_of_status_ne {tasks : List Task} (h : NodupIds tasks) {t : Task}
    (ht : t ∈ tasks) {s : TaskStatus} (hts : t.status ≠ s) :
    applyRank (sortLane (laneTasks s tasks)) t = t :=
  applyRank_of_notMem (fun hmem => id_notMem_lane h ht hts
    (((List.perm_insertionSort laneLe _).map Task.id).mem_iff.1 hmem))

theorem normalize_eq_self_of_dense {tasks : List Task} (h : NodupIds tasks)
    {s : TaskStatus} (hD : laneDense s tasks) :
    normalizeStatusOrders s tasks = tasks := by
  rw [normalize_eq_map h s]
  refine (List.map_congr_left fun t ht => ?_).trans (List.map_id' _)
  by_cases hts : t.status = s
  · have htl : t ∈ laneTasks s tasks := List.mem_filter.2 ⟨ht, beq_iff_eq.2 hts⟩
    rw [applyRank_eq_key h s (laneLe_iff_order_of_nodup (orders_nodup_of_laneDense hD)) hD t htl]
  · exact applyRank_of_status_ne h ht hts

/-- `nextOrderForStatus` is one past the maximum, i.e. the lane size, on a
dense lane. -/
theorem nextOrder_eq_length {tasks : List Task} (hD : Dense tasks) (s : TaskStatus) :
    nextOrderForStatus s tasks = (laneTasks s tasks).length := by
  unfold nextOrderForStatus
  by_cases hlen : (laneTasks s tasks).length = 0
  · rw [if_pos hlen, hlen]
  · rw [if_neg hlen]
    have hperm := hD s
    unfold laneDense at hperm
    have hfold : ((laneTasks s tasks).map Task.order).foldl max 0
        = (List.range (laneTasks s tasks).length).foldl max 0 :=
      (hperm.foldl_eq' fun x _ y _ z => by
        rw [Nat.max_assoc, Nat.max_assoc, Nat.max_comm x y]) 0
    rw [hfold]
    have hmax : ∀ n : Nat, n ≠ 0 → (List.range n).foldl max 0 = n - 1 := by
      intro n
      induction n with
      | zero => intro hn; exact absurd rfl hn
      | succ m ih =>
        intro _
        rw [List.range_succ, List.foldl_append]
        by_cases hm : m = 0
        · subst hm; rfl
        · rw [ih hm]
          simp only [List.foldl_cons, List.foldl_nil]
          omega
    rw [hmax _ hlen]
    omega

theorem lane_append_new {tasks : List Task} {new : Task} {s : TaskStatus}
    (hs : new.status = s) :
    laneTasks s (tasks ++ [new]) = laneTasks s tasks ++ [new] := by
  rw [laneTasks_append, laneTasks_singleton_self s hs]

/-- C3: on an id-unique store satisfying the dense-order invariant, a create
with no explicit `order` assigns the new task `order` = one past the lane
maximum (= the old lane size); the operation leaves every pre-existing record
untouched, storing the returned record itself at the end of the list, so the
new task occupies the last position of its lane (`order` = new lane size - 1)
after every previously existing member of that lane. -/
theorem C3_create_appends {tasks : List Task} (h : NodupIds tasks) (hD : Dense tasks)
    {input : TaskInput} {newId time : Nat} (hf : newId ∉ tasks.map Task.id)
    (htitle : ¬ input.title = "") (hord : input.order = none) :
    addTask tasks input newId time
        = .ok (tasks ++ [newTask input newId time tasks], newTask input newId time tasks)
      ∧ (newTask input newId time tasks).order = (laneTasks input.status tasks).length
      ∧ getById (tasks ++ [newTask input newId time tasks]) newId
          = some (newTask input newId time tasks)
      ∧ (laneTasks input.status (tasks ++ [newTask input newId time tasks])).length
          = (laneTasks input.status tasks).length + 1
      ∧ ∀ t ∈ laneTasks input.status (tasks ++ [newTask input newId time tasks]),
          t.id ≠ newId → t.order < (newTask input newId time tasks).order := by
  set s := input.status with hs
  set new := newTask input newId time tasks with hnew
  have hnstat : new.status = s := rfl
  have hnid : new.id = newId := rfl
  have hnord : new.order = (laneTasks s tasks).length := by
    rw [hnew]
    unfold newTask
    rw [hord]
    exact nextOrder_eq_length hD s
  have hlaneA : laneTasks s (tasks ++ [new]) = laneTasks s tasks ++ [new] :=
    lane_append_new hnstat
  have hnodupA : NodupIds (tasks ++ [new]) := nodupIds_append_fresh h (hnid ▸ hf)
  have horder_lt : ∀ t ∈ laneTasks s tasks, t.order < (laneTasks s tasks).length :=
    fun t ht => order_lt_of_mem_lane (hD s) ht
  have hdenseA : laneDense s (tasks ++ [new]) := by
    unfold laneDense
    rw [hlaneA]
    have h1 := hD s
    unfold laneDense at h1
    simp only [List.map_append, List.length_append, List.map_cons, List.map_nil,
      List.length_cons, List.length_nil]
    rw [hnord, List.range_succ]
    exact h1.append_right _
  have hDall : Dense (tasks ++ [new]) := by
    intro s'
    by_cases hss : s' = s
    · subst hss; exact hdenseA
    · unfold laneDense
      rw [laneTasks_append, laneTasks_singleton_other s' (fun he => hss (he ▸ hnstat ▸ rfl)),
        List.append_nil]
      exact hD s'
  have hfix : normalizeStatusOrders s (tasks ++ [new]) = tasks ++ [new] :=
    normalize_eq_self_of_dense hnodupA (hDall s)
  refine ⟨?_, hnord, ?_, ?_, ?_⟩
  · unfold addTask
    rw [if_neg htitle, ← hs, ← hnew, hfix]
  · rw [← hnid]
    exact getById_of_mem hnodupA (List.mem_append_right tasks (List.mem_singleton.2 rfl))
  · rw [hlaneA, List.length_append]
    rfl
  · intro t ht htid
    rw [hlaneA] at ht
    rcases List.mem_append.1 ht with hL | hnew'
    · rw [hnord]
      exact horder_lt t hL
    · exact absurd (List.mem_singleton.1 hnew' ▸ hnid) htid

/-- Witness for C3: create into a lane already holding one task. -/
theorem C3_create_appends_witness :
    NodupIds [(⟨5, "x", "", .todo, .medium, none, 0, 0, 0⟩ : Task)]
      ∧ Dense [(⟨5, "x", "", .todo, .medium, none, 0, 0, 0⟩ : Task)]
      ∧ (7 : Nat) ∉ [(⟨5, "x", "", .todo, .medium, none, 0, 0, 0⟩ : Task)].map Task.id
      ∧ ({ title := "b" } : TaskInput).order = none
      ∧ addTask [(⟨5, "x", "", .todo, .medium, none, 0, 0, 0⟩ : Task)]
          { title := "b" } 7 20
        = .ok ([⟨5, "x", "", .todo, .medium, none, 0, 0, 0⟩,
                ⟨7, "b", "", .todo, .medium, none, 1, 20, 20⟩],
               ⟨7, "b", "", .todo, .medium, none, 1, 20, 20⟩) :=
  ⟨by decide, by decide, by decide, by decide,
    ((C3_create_appends (by decide) (by decide) (by decide)
      (by decide) (by decide)).1.trans rfl)⟩

/-- C10 (amended): the Task value returned by `addTask` / `updateTask` agrees
with the record stored for that id on every field except possibly `order`:
normalization may rewrite the stored `order` after the returned value was
captured, so an explicit out-of-range `order` survives in the return value but
not in the store. -/
theorem C10_return_vs_stored {tasks : List Task} (h : NodupIds tasks) (time : Nat) :
    (∀ input newId tasks' ret, newId ∉ tasks.map Task.id →
        addTask tasks input newId time = .ok (tasks', ret) →
        ∃ stored, getById tasks' ret.id = some stored
          ∧ stored = { ret with order := stored.order })
      ∧ (∀ u tasks' ret, updateTask tasks u time = .ok (tasks', ret) →
        ∃ stored, getById tasks' ret.id = some stored
          ∧ stored = { ret with order := stored.order }) := by
  constructor
  · intro input newId tasks' ret hf hok
    unfold addTask at hok
    by_cases htitle : input.title = ""
    · rw [if_pos htitle] at hok
      exact absurd hok (by simp)
    · rw [if_neg htitle] at hok
      injection hok with hok
      injection hok with h1 h2
      subst h1
      subst h2
      have hnodupA : NodupIds (tasks ++ [newTask input newId time tasks]) :=
        nodupIds_append_fresh h hf
      rw [normalize_eq_map hnodupA]
      refine ⟨_, getById_map (applyRank_id _) hnodupA
        (List.mem_append_right tasks (List.mem_singleton.2 rfl)), ?_⟩
      exact applyRank_eq_orderUpdate _ _
  · intro u tasks' ret hok
    unfold updateTask at hok
    cases hfind : tasks.find? (fun t => t.id == u.id) with
    | none =>
      rw [hfind] at hok
      exact absurd hok (by simp)
    | some old =>
      rw [hfind] at hok
      dsimp only at hok
      by_cases htitle : (mergedTask old u time).title = ""
      · rw [if_pos htitle] at hok
        exact absurd hok (by simp)
      · rw [if_neg htitle] at hok
        injection hok with hok
        injection hok with h1 h2
        subst h1
        subst h2
        obtain ⟨l₁, l₂, hsplit, hrepl, _, hoid⟩ :=
          replaceById_of_find (mergedTask old u time) hfind
        have hA1 : NodupIds (replaceById tasks u.id (mergedTask old u time)) := by
          have h' := h
          unfold NodupIds at h' ⊢
          rw [hrepl]
          rw [hsplit] at h'
          simpa [mergedTask] using h'
        have hmem₁ : mergedTask old u time ∈ replaceById tasks u.id (mergedTask old u time) := by
          rw [hrepl]
          exact List.mem_append_right l₁ (List.mem_cons_self _ _)
        have hA2 : NodupIds (normalizeStatusOrders old.status
            (replaceById tasks u.id (mergedTask old u time))) := normalize_nodupIds hA1 _
        rw [normalize_eq_map hA2, normalize_eq_map hA1, List.map_map]
        refine ⟨_, getById_map (fun t => by
          rw [Function.comp_apply, applyRank_id, applyRank_id]) hA1 hmem₁, ?_⟩
        obtain ⟨o₁, ho₁⟩ := applyRank_fields
          (sortLane (laneTasks old.status (replaceById tasks u.id (mergedTask old u time))))
          (mergedTask old u time)
        rw [Function.comp_apply, ho₁]
        obtain ⟨o₂, ho₂⟩ := applyRank_fields
          (sortLane (laneTasks (mergedTask old u time).status
            ((replaceById tasks u.id (mergedTask old u time)).map
              (applyRank (sortLane (laneTasks old.status
                (replaceById tasks u.id (mergedTask old u time))))))))
          { mergedTask old u time with order := o₁ }
        rw [ho₂]

/-- Witness for the amended C10: adding a task with an out-of-range explicit
order still stores a record agreeing with the returned one on everything but
`order`. -/
theorem C10_return_vs_stored_witness :
    ∃ stored,
      getById [(⟨0, "a", "", .todo, .medium, none, 0, 0, 0⟩ : Task),
               ⟨1, "b", "", .todo, .medium, none, 1, 10, 10⟩] 1
          = some stored
      ∧ stored = { (⟨1, "b", "", .todo, .medium, none, 5, 10, 10⟩ : Task) with
          order := stored.order } :=
  (@C10_return_vs_stored [⟨0, "a", "", .todo, .medium, none, 0, 0, 0⟩] (by decide) 10).1
    { title := "b", order := some 5 } 1 _ _ (by decide) rfl

/-- C10 counterexample: with one `todo` task of order 0 stored, `addTask` with
explicit order 5 returns a record carrying `order` 5 while the record stored
for that id carries the normalized `order` 1 — the returned Task does not
match the stored one. -/
theorem C10_counterexample :
    addTask [(⟨0, "a", "", .todo, .medium, none, 0, 0, 0⟩ : Task)]
        { title := "b", order := some 5 } 1 10
      = .ok ([⟨0, "a", "", .todo, .medium, none, 0, 0, 0⟩,
              ⟨1, "b", "", .todo, .medium, none, 1, 10, 10⟩],
             ⟨1, "b", "", .todo, .medium, none, 5, 10, 10⟩)
    ∧ getById [(⟨0, "a", "", .todo, .medium, none, 0, 0, 0⟩ : Task),
               ⟨1, "b", "", .todo, .medium, none, 1, 10, 10⟩] 1
        = some ⟨1, "b", "", .todo, .medium, none, 1, 10, 10⟩
    ∧ (⟨1, "b", "", .todo, .medium, none, 1, 10, 10⟩ : Task)
        ≠ ⟨1, "b", "", .todo, .medium, none, 5, 10, 10⟩ := by
  refine ⟨rfl, by decide, by decide⟩

/-!  Arithmetic range facts for the two renumbering patterns of `updateTask`:
closing the gap left in the old lane and opening a slot in the new lane. -/

theorem range'_glue (a b : Nat) :
    List.range' 0 a ++ List.range' a b = List.range' 0 (a + b) := by
  have h := List.range'_append_1 0 a b
  rw [Nat.zero_add] at h
  rw [h]
  congr 1
  omega

theorem compress_erase_range {r n : Nat} (hr : r < n) :
    ((List.range n).erase r).map (fun j => if j < r then j else j - 1)
      = List.range (n - 1) := by
  have hsplit : List.range n = List.range' 0 r ++ List.range' r (n - r) := by
    rw [List.range_eq_range', range'_glue]
    congr 1
    omega
  have hsucc : List.range' r (n - r) = r :: List.range' (r + 1) (n - r - 1) := by
    obtain ⟨d, hd⟩ : ∃ d, n - r = d + 1 := ⟨n - r - 1, by omega⟩
    rw [(by omega : n - r - 1 = d), hd, List.range'_succ]
  have hnotm : r ∉ List.range' 0 r := by
    intro hm
    obtain ⟨i, hi, he⟩ := List.mem_range'.1 hm
    omega
  rw [hsplit, hsucc, List.erase_append_right _ hnotm, List.erase_cons_head,
    List.map_append]
  have h1 : (List.range' 0 r).map (fun j => if j < r then j else j - 1)
      = List.range' 0 r := by
    refine (List.map_congr_left fun j hj => ?_).trans (List.map_id' _)
    obtain ⟨i, hi, he⟩ := List.mem_range'.1 hj
    rw [if_pos (by omega)]
  have h2 : (List.range' (r + 1) (n - r - 1)).map (fun j => if j < r then j else j - 1)
      = List.range' r (n - r - 1) := by
    have hm : List.range' (1 + r) (n - r - 1) = (List.range' r (n - r - 1)).map (1 + ·) := by
      rw [List.map_add_range']
    have hrr : r + 1 = 1 + r := by omega
    rw [hrr, hm, List.map_map]
    refine (List.map_congr_left fun j hj => ?_).trans (List.map_id' _)
    obtain ⟨i, hi, he⟩ := List.mem_range'.1 hj
    rw [Function.comp_apply, if_neg (by omega)]
    omega
  rw [h1, h2, range'_glue, List.range_eq_range']
  congr 1
  omega

theorem expand_range {k m : Nat} (hk : k ≤ m) :
    (k :: (List.range m).map (fun j => if j < k then j else j + 1)).Perm
      (List.range (m + 1)) := by
  have hsplit : List.range m = List.range' 0 k ++ List.range' k (m - k) := by
    rw [List.range_eq_range', range'_glue]
    congr 1
    omega
  have h1 : (List.range' 0 k).map (fun j => if j < k then j else j + 1)
      = List.range' 0 k := by
    refine (List.map_congr_left fun j hj => ?_).trans (List.map_id' _)
    obtain ⟨i, hi, he⟩ := List.mem_range'.1 hj
    rw [if_pos (by omega)]
  have h2 : (List.range' k (m - k)).map (fun j => if j < k then j else j + 1)
      = List.range' (k + 1) (m - k) := by
    have he1 : (List.range' k (m - k)).map (fun j => if j < k then j else j + 1)
        = (List.range' k (m - k)).map (1 + ·) := by
      refine List.map_congr_left fun j hj => ?_
      obtain ⟨i, hi, he⟩ := List.mem_range'.1 hj
      rw [if_neg (by omega)]
      omega
    rw [he1, List.map_add_range']
    congr 1
    omega
  rw [hsplit, List.map_append, h1, h2]
  refine (List.Perm.symm List.perm_middle).trans ?_
  have hc : k :: List.range' (k + 1) (m - k) = List.range' k (m - k + 1) := by
    rw [List.range'_succ]
  rw [hc, range'_glue, List.range_eq_range']
  have he : k + (m - k + 1) = m + 1 := by omega
  rw [he]

theorem ids_filter_ne {tasks : List Task} (h : NodupIds tasks) (i : Nat) :
    (tasks.filter (fun t => !(t.id == i))).map Task.id = (tasks.map Task.id).erase i := by
  induction tasks with
  | nil => rfl
  | cons t ts ih =>
    unfold NodupIds at h
    simp only [List.map_cons, List.nodup_cons] at h
    obtain ⟨hti, hts⟩ := h
    by_cases ht : t.id = i
    · rw [List.filter_cons_of_neg (by simpa using ht), List.map_cons, ht,
        List.erase_cons_head]
      have : ts.filter (fun t => !(t.id == i)) = ts := by
        refine List.filter_eq_self.2 fun x hx => ?_
        have : x.id ≠ i := fun he => hti (ht ▸ he ▸ List.mem_map_of_mem Task.id hx)
        simpa using this
      rw [this]
    · rw [List.filter_cons_of_pos (by simpa using ht), List.map_cons, List.map_cons,
        List.erase_cons_tail (by simpa using ht), ih hts]

/-- C5: `updateTask` against an absent id fails with the `Task not found`
error and leaves the collection unchanged; `deleteTask` against an absent id
is a silent no-op; against a present id `deleteTask` removes exactly that
record (ids shrink by exactly that id), keeps every survivor's non-order
fields, and renormalizes the lanes so the dense-order invariant still holds. -/
theorem C5_missing_id_and_delete {tasks : List Task} (h : NodupIds tasks)
    (hD : Dense tasks) (i : Nat) (time : Nat) :
    (i ∉ tasks.map Task.id →
      (∀ u : TaskUpdate, u.id = i →
        updateTask tasks u time = .error "Task not found"
          ∧ applyOp tasks (.update u time) = tasks)
      ∧ deleteTask tasks i = tasks)
    ∧ (i ∈ tasks.map Task.id →
      (deleteTask tasks i).map Task.id = (tasks.map Task.id).erase i
      ∧ NodupIds (deleteTask tasks i)
      ∧ Dense (deleteTask tasks i)
      ∧ ∀ t' ∈ deleteTask tasks i,
          ∃ t ∈ tasks, t.id = t'.id ∧ t' = { t with order := t'.order }) := by
  constructor
  · intro habs
    have hfind : tasks.find? (fun t => t.id == i) = none := find?_eq_none_of_ids habs
    constructor
    · intro u hui
      have hfind' : tasks.find? (fun t => t.id == u.id) = none := by rw [hui]; exact hfind
      constructor
      · unfold updateTask
        rw [hfind']
      · unfold applyOp updateTask
        dsimp only
        rw [hfind']
    · unfold deleteTask
      rw [hfind]
      refine List.filter_eq_self.2 fun t htm => ?_
      have := List.find?_eq_none.1 hfind t htm
      simpa using this
  · intro hpres
    have hsome : (tasks.find? (fun t => t.id == i)).isSome := by
      rw [List.find?_isSome]
      obtain ⟨t, htm, hti⟩ := List.mem_map.1 hpres
      exact ⟨t, htm, by simpa using hti⟩
    obtain ⟨r, hfind⟩ := Option.isSome_iff_exists.1 hsome
    have hrmem : r ∈ tasks := List.mem_of_find?_eq_some hfind
    have hnf : NodupIds (tasks.filter (fun t => !(t.id == i))) := by
      unfold NodupIds at *
      exact h.sublist (List.Sublist.map Task.id (List.filter_sublist tasks))
    have hdel : deleteTask tasks i
        = normalizeStatusOrders r.status (tasks.filter (fun t => !(t.id == i))) := by
      unfold deleteTask
      rw [hfind]
    have hpres' := del_preserves h hD i
    have happ : applyOp tasks (.del i) = deleteTask tasks i := rfl
    rw [happ] at hpres'
    refine ⟨?_, hpres'.1, hpres'.2, ?_⟩
    · rw [hdel, normalize_ids hnf, ids_filter_ne h i]
    · intro t' ht'
      rw [hdel, normalize_eq_map hnf] at ht'
      obtain ⟨x, hx, hxe⟩ := List.mem_map.1 ht'
      have hxm : x ∈ tasks := List.mem_of_mem_filter hx
      obtain ⟨o, ho⟩ := applyRank_fields
        (sortLane (laneTasks r.status (tasks.filter (fun t => !(t.id == i))))) x
      refine ⟨x, hxm, ?_, ?_⟩
      · rw [← hxe, applyRank_id]
      · rw [← hxe, ho]

/-- Witness for C5 at a concrete store: id 9 is absent, id 1 is present. -/
theorem C5_missing_id_and_delete_witness :
    ((9 : Nat) ∉ [(⟨1, "a", "", .todo, .medium, none, 0, 0, 0⟩ : Task)].map Task.id
      → (∀ u : TaskUpdate, u.id = 9 →
          updateTask [(⟨1, "a", "", .todo, .medium, none, 0, 0, 0⟩ : Task)] u 5
              = .error "Task not found"
            ∧ applyOp [(⟨1, "a", "", .todo, .medium, none, 0, 0, 0⟩ : Task)] (.update u 5)
              = [(⟨1, "a", "", .todo, .medium, none, 0, 0, 0⟩ : Task)])
        ∧ deleteTask [(⟨1, "a", "", .todo, .medium, none, 0, 0, 0⟩ : Task)] 9
            = [(⟨1, "a", "", .todo, .medium, none, 0, 0, 0⟩ : Task)])
    ∧ ((9 : Nat) ∈ [(⟨1, "a", "", .todo, .medium, none, 0, 0, 0⟩ : Task)].map Task.id
      → (deleteTask [(⟨1, "a", "", .todo, .medium, none, 0, 0, 0⟩ : Task)] 9).map Task.id
          = ([(⟨1, "a", "", .todo, .medium, none, 0, 0, 0⟩ : Task)].map Task.id).erase 9
        ∧ NodupIds (deleteTask [(⟨1, "a", "", .todo, .medium, none, 0, 0, 0⟩ : Task)] 9)
        ∧ Dense (deleteTask [(⟨1, "a", "", .todo, .medium, none, 0, 0, 0⟩ : Task)] 9)
        ∧ ∀ t' ∈ deleteTask [(⟨1, "a", "", .todo, .medium, none, 0, 0, 0⟩ : Task)] 9,
            ∃ t ∈ [(⟨1, "a", "", .todo, .medium, none, 0, 0, 0⟩ : Task)],
              t.id = t'.id ∧ t' = { t with order := t'.order }) :=
  C5_missing_id_and_delete (by decide) (by decide) 9 5

theorem mem_laneTasks {x : Task} {σ : TaskStatus} {L : List Task} :
    x ∈ laneTasks σ L ↔ x ∈ L ∧ x.status = σ := by
  unfold laneTasks
  rw [List.mem_filter]
  simp

theorem laneTasks_cons_of_pos {σ : TaskStatus} {x : Task} (hx : x.status = σ)
    (L : List Task) : laneTasks σ (x :: L) = x :: laneTasks σ L := by
  unfold laneTasks
  rw [List.filter_cons_of_pos (by simpa using hx)]

theorem laneTasks_cons_of_neg {σ : TaskStatus} {x : Task} (hx : x.status ≠ σ)
    (L : List Task) : laneTasks σ (x :: L) = laneTasks σ L := by
  unfold laneTasks
  rw [List.filter_cons_of_neg (by simpa using hx)]

theorem nodupIds_split {tasks l₁ l₂ : List Task} {t : Task} (h : NodupIds tasks)
    (hsplit : tasks = l₁ ++ t :: l₂) :
    t.id ∉ l₁.map Task.id ∧ t.id ∉ l₂.map Task.id := by
  subst hsplit
  unfold NodupIds at h
  rw [List.map_append, List.map_cons, List.nodup_append] at h
  obtain ⟨_, h₂, hdisj⟩ := h
  constructor
  · intro hm
    exact hdisj hm (List.mem_cons_self _ _)
  · rw [List.nodup_cons] at h₂
    exact h₂.1

/-- C4: moving a task `t` to a different status `s` with an explicit order
hint `k ≤ |lane s|`, when every stored timestamp precedes the update's
`now()`: the moved record is stored exactly as merged (status `s`, order `k`,
fresh `updatedAt`); the old lane's remaining tasks close the gap (orders above
`t.order` shift down one, relative order preserved); the new lane's previous
occupants at positions `≥ k` shift up one while those below `k` keep their
positions; every record of an uninvolved lane is untouched; and both lanes are
renormalized, so the dense-order invariant holds in the result. -/
theorem C4_move_across_lanes {tasks : List Task} (h : NodupIds tasks) (hD : Dense tasks)
    {t : Task} (ht : t ∈ tasks) {s : TaskStatus} (hs : s ≠ t.status)
    {k : Nat} (hk : k ≤ (laneTasks s tasks).length)
    {time : Nat} (htime : ∀ x ∈ tasks, x.updatedAt < time)
    (htitle : ¬ t.title = "") :
    ∃ tasks',
      updateTask tasks { id := t.id, status := some s, order := some k } time
        = .ok (tasks', { t with status := s, order := k, updatedAt := time })
      ∧ getById tasks' t.id = some { t with status := s, order := k, updatedAt := time }
      ∧ (∀ x ∈ laneTasks t.status tasks, x.id ≠ t.id →
          getById tasks' x.id
            = some { x with order := if x.order < t.order then x.order else x.order - 1 })
      ∧ (∀ x ∈ laneTasks s tasks,
          getById tasks' x.id
            = some { x with order := if x.order < k then x.order else x.order + 1 })
      ∧ (∀ x ∈ tasks, x.status ≠ t.status → x.status ≠ s → getById tasks' x.id = some x)
      ∧ Dense tasks' := by
  set u : TaskUpdate := { id := t.id, status := some s, order := some k } with hu
  set M : Task := { t with status := s, order := k, updatedAt := time } with hMdef
  have hMr : mergedTask t u time = M := rfl
  have hMstat : M.status = s := rfl
  have hMid : M.id = t.id := rfl
  have hMord : M.order = k := rfl
  have hMtime : M.updatedAt = time := rfl
  have hMtitle : ¬ M.title = "" := htitle
  have hfind : tasks.find? (fun x => x.id == u.id) = some t := getById_of_mem h ht
  obtain ⟨l₁, l₂, hsplit, hrepl, hl₁, hoid⟩ := replaceById_of_find (mergedTask t u time) hfind
  rw [hMr] at hrepl
  set R : List Task := replaceById tasks u.id M with hRdef
  have htl : t ∈ laneTasks t.status tasks := mem_laneTasks.2 ⟨ht, rfl⟩
  have hr : t.order < (laneTasks t.status tasks).length :=
    order_lt_of_mem_lane (hD t.status) htl
  have hids := nodupIds_split h hsplit
  have hA1 : NodupIds R := by
    have h' := h
    unfold NodupIds at h' ⊢
    rw [hrepl]
    rw [hsplit] at h'
    simpa using h'
  have hok : updateTask tasks u time
      = .ok (normalizeStatusOrders s (normalizeStatusOrders t.status R), M) := by
    unfold updateTask
    rw [hfind]
    dsimp only
    rw [hMr, if_neg hMtitle, hMstat]
  have hLold : laneTasks t.status tasks
      = laneTasks t.status l₁ ++ t :: laneTasks t.status l₂ := by
    rw [hsplit, laneTasks_append, laneTasks_cons_of_pos rfl]
  have hLoldR : laneTasks t.status R = laneTasks t.status l₁ ++ laneTasks t.status l₂ := by
    rw [hrepl, laneTasks_append,
      laneTasks_cons_of_neg (fun he => hs ((hMstat.symm.trans he).symm ▸ rfl))]
  have hLs : laneTasks s tasks = laneTasks s l₁ ++ laneTasks s l₂ := by
    rw [hsplit, laneTasks_append, laneTasks_cons_of_neg (Ne.symm hs)]
  have hLsR : laneTasks s R = laneTasks s l₁ ++ M :: laneTasks s l₂ := by
    rw [hrepl, laneTasks_append, laneTasks_cons_of_pos hMstat]
  have hmem_l₁tasks : ∀ x ∈ l₁, x ∈ tasks := fun x hx => by
    rw [hsplit]; exact List.mem_append_left _ hx
  have hmem_l₂tasks : ∀ x ∈ l₂, x ∈ tasks := fun x hx => by
    rw [hsplit]; exact List.mem_append_right _ (List.mem_cons_of_mem _ hx)
  have hmem_l₁R : ∀ x ∈ l₁, x ∈ R := fun x hx => by
    rw [hrepl]; exact List.mem_append_left _ hx
  have hmem_l₂R : ∀ x ∈ l₂, x ∈ R := fun x hx => by
    rw [hrepl]; exact List.mem_append_right _ (List.mem_cons_of_mem _ hx)
  have hMR : M ∈ R := by
    rw [hrepl]; exact List.mem_append_right _ (List.mem_cons_self _ _)
  have hOldR_mem : ∀ x ∈ laneTasks t.status R,
      x ∈ laneTasks t.status tasks ∧ x.id ≠ t.id ∧ x ∈ R := by
    intro x hx
    rw [hLoldR] at hx
    rcases List.mem_append.1 hx with h1 | h2
    · obtain ⟨hx1, hx2⟩ := mem_laneTasks.1 h1
      exact ⟨mem_laneTasks.2 ⟨hmem_l₁tasks x hx1, hx2⟩,
        fun he => hids.1 (he ▸ List.mem_map_of_mem Task.id hx1), hmem_l₁R x hx1⟩
    · obtain ⟨hx1, hx2⟩ := mem_laneTasks.1 h2
      exact ⟨mem_laneTasks.2 ⟨hmem_l₂tasks x hx1, hx2⟩,
        fun he => hids.2 (he ▸ List.mem_map_of_mem Task.id hx1), hmem_l₂R x hx1⟩
  have hndOld : ((laneTasks t.status tasks).map Task.order).Nodup :=
    orders_nodup_of_laneDense (hD t.status)
  have hOrdNe : ∀ x ∈ laneTasks t.status R, x.order ≠ t.order := by
    intro x hx he
    have hxx := hOldR_mem x hx
    have hxt : x = t := List.inj_on_of_nodup_map hndOld hxx.1 htl he
    exact hxx.2.1 (by rw [hxt])
  have hk₁ : ∀ a ∈ laneTasks t.status R, ∀ b ∈ laneTasks t.status R,
      laneLe a b ↔ (if a.order < t.order then a.order else a.order - 1)
        ≤ (if b.order < t.order then b.order else b.order - 1) := by
    intro a ha b hb
    have hane := hOrdNe a ha
    have hbne := hOrdNe b hb
    by_cases hab : a.order = b.order
    · have hab' : a = b :=
        List.inj_on_of_nodup_map hndOld (hOldR_mem a ha).1 (hOldR_mem b hb).1 hab
      subst hab'
      rw [laneLe_iff]
      split <;> omega
    · rw [laneLe_iff]
      split <;> split <;> omega
  have horders_oldR : ((laneTasks t.status R).map Task.order)
      = (((laneTasks t.status tasks).map Task.order).erase t.order) := by
    rw [hLold, hLoldR, List.map_append, List.map_append, List.map_cons]
    have hnotm : t.order ∉ (laneTasks t.status l₁).map Task.order := by
      have hnd := hndOld
      rw [hLold, List.map_append, List.map_cons, List.nodup_append] at hnd
      intro hm
      exact hnd.2.2 hm (List.mem_cons_self _ _)
    rw [List.erase_append_right _ hnotm, List.erase_cons_head]
  have hlen_old : (laneTasks t.status R).length + 1 = (laneTasks t.status tasks).length := by
    rw [hLold, hLoldR]
    simp only [List.length_append, List.length_cons]
    omega
  have hperm₁ : ((laneTasks t.status R).map
        (fun x => if x.order < t.order then x.order else x.order - 1)).Perm
      (List.range (laneTasks t.status R).length) := by
    have hcomp : (laneTasks t.status R).map
          (fun x => if x.order < t.order then x.order else x.order - 1)
        = ((laneTasks t.status R).map Task.order).map
            (fun j => if j < t.order then j else j - 1) := by
      rw [List.map_map]
      rfl
    rw [hcomp, horders_oldR]
    have hstep : ((((laneTasks t.status tasks).map Task.order).erase t.order).map
          (fun j => if j < t.order then j else j - 1)).Perm
        (((List.range (laneTasks t.status tasks).length).erase t.order).map
          (fun j => if j < t.order then j else j - 1)) :=
      ((hD t.status).erase t.order).map _
    refine hstep.trans ?_
    rw [compress_erase_range hr]
    have he : (laneTasks t.status tasks).length - 1 = (laneTasks t.status R).length := by
      omega
    rw [he]
  have happly₁ : ∀ x ∈ laneTasks t.status R,
      applyRank (sortLane (laneTasks t.status R)) x
        = { x with order := if x.order < t.order then x.order else x.order - 1 } :=
    applyRank_eq_key hA1 t.status hk₁ hperm₁
  have hA2 : NodupIds (normalizeStatusOrders t.status R) := normalize_nodupIds hA1 _
  have hLsT₂ : laneTasks s (normalizeStatusOrders t.status R) = laneTasks s R :=
    laneTasks_normalize_other hA1 hs
  have hLsR_mem : ∀ x ∈ laneTasks s R,
      x = M ∨ (x ∈ laneTasks s tasks ∧ x.id ≠ t.id ∧ x ∈ R ∧ x ∈ tasks) := by
    intro x hx
    rw [hLsR] at hx
    rcases List.mem_append.1 hx with h1 | h2
    · obtain ⟨hx1, hx2⟩ := mem_laneTasks.1 h1
      exact Or.inr ⟨mem_laneTasks.2 ⟨hmem_l₁tasks x hx1, hx2⟩,
        fun he => hids.1 (he ▸ List.mem_map_of_mem Task.id hx1),
        hmem_l₁R x hx1, hmem_l₁tasks x hx1⟩
    · rcases List.mem_cons.1 h2 with rfl | h3
      · exact Or.inl rfl
      · obtain ⟨hx1, hx2⟩ := mem_laneTasks.1 h3
        exact Or.inr ⟨mem_laneTasks.2 ⟨hmem_l₂tasks x hx1, hx2⟩,
          fun he => hids.2 (he ▸ List.mem_map_of_mem Task.id hx1),
          hmem_l₂R x hx1, hmem_l₂tasks x hx1⟩
  have hndS : ((laneTasks s tasks).map Task.order).Nodup :=
    orders_nodup_of_laneDense (hD s)
  have horderS : ∀ x ∈ laneTasks s tasks, x.order < (laneTasks s tasks).length :=
    fun x hx => order_lt_of_mem_lane (hD s) hx
  have hk₂ : ∀ a ∈ laneTasks s (normalizeStatusOrders t.status R),
      ∀ b ∈ laneTasks s (normalizeStatusOrders t.status R),
      laneLe a b ↔ (if a.id = t.id then k else if a.order < k then a.order else a.order + 1)
        ≤ (if b.id = t.id then k else if b.order < k then b.order else b.order + 1) := by
    rw [hLsT₂]
    intro a ha b hb
    rcases hLsR_mem a ha with rfl | ⟨haL, haid, _, hatasks⟩
    · rcases hLsR_mem b hb with rfl | ⟨hbL, hbid, _, hbtasks⟩
      · rw [laneLe_iff, if_pos rfl]
        omega
      · rw [laneLe_iff, if_pos hMid, if_neg hbid, hMord, hMtime]
        have hbu : b.updatedAt < time := htime b hbtasks
        split <;> omega
    · rcases hLsR_mem b hb with rfl | ⟨hbL, hbid, _, hbtasks⟩
      · rw [laneLe_iff, if_pos hMid, if_neg haid, hMord, hMtime]
        have hau : a.updatedAt < time := htime a hatasks
        split <;> omega
      · rw [laneLe_iff, if_neg haid, if_neg hbid]
        by_cases hab : a.order = b.order
        · have hab' : a = b := List.inj_on_of_nodup_map hndS haL hbL hab
          subst hab'
          split <;> omega
        · split <;> split <;> omega
  have hlenS : (laneTasks s R).length = (laneTasks s tasks).length + 1 := by
    rw [hLs, hLsR]
    simp only [List.length_append, List.length_cons]
    omega
  have hperm₂ : ((laneTasks s (normalizeStatusOrders t.status R)).map
        (fun x => if x.id = t.id then k else if x.order < k then x.order else x.order + 1)).Perm
      (List.range (laneTasks s (normalizeStatusOrders t.status R)).length) := by
    rw [hLsT₂, hLsR, List.map_append, List.map_cons, if_pos hMid]
    have hcongr : ∀ (L : List Task), (∀ x ∈ L, x.id ≠ t.id) →
        L.map (fun x => if x.id = t.id then k
            else if x.order < k then x.order else x.order + 1)
          = (L.map Task.order).map (fun j => if j < k then j else j + 1) := by
      intro L hL
      rw [List.map_map]
      exact List.map_congr_left fun x hx => if_neg (hL x hx)
    have hid₁ : ∀ x ∈ laneTasks s l₁, x.id ≠ t.id := fun x hx he =>
      hids.1 (he ▸ List.mem_map_of_mem Task.id (mem_laneTasks.1 hx).1)
    have hid₂ : ∀ x ∈ laneTasks s l₂, x.id ≠ t.id := fun x hx he =>
      hids.2 (he ▸ List.mem_map_of_mem Task.id (mem_laneTasks.1 hx).1)
    rw [hcongr _ hid₁, hcongr _ hid₂]
    refine List.perm_middle.trans ?_
    rw [← List.map_append, ← List.map_append, ← hLs]
    refine (List.Perm.cons k (((hD s).map _))).trans ?_
    refine (expand_range hk).trans ?_
    rw [List.length_append, List.length_cons]
    have he : (laneTasks s tasks).length + 1
        = (laneTasks s l₁).length + ((laneTasks s l₂).length + 1) := by
      rw [hLs, List.length_append]
      omega
    rw [he]
  have happly₂ : ∀ x ∈ laneTasks s (normalizeStatusOrders t.status R),
      applyRank (sortLane (laneTasks s (normalizeStatusOrders t.status R))) x
        = { x with order := if x.id = t.id then k
              else if x.order < k then x.order else x.order + 1 } :=
    applyRank_eq_key hA2 s hk₂ hperm₂
  have e₂ : normalizeStatusOrders t.status R
      = R.map (applyRank (sortLane (laneTasks t.status R))) := normalize_eq_map hA1 t.status
  have e₃ : normalizeStatusOrders s (normalizeStatusOrders t.status R)
      = (normalizeStatusOrders t.status R).map
          (applyRank (sortLane (laneTasks s (normalizeStatusOrders t.status R)))) :=
    normalize_eq_map hA2 s
  have hstored : ∀ x ∈ R,
      getById (normalizeStatusOrders s (normalizeStatusOrders t.status R)) x.id
        = some (applyRank (sortLane (laneTasks s (normalizeStatusOrders t.status R)))
            (applyRank (sortLane (laneTasks t.status R)) x)) := by
    intro x hx
    rw [e₃, e₂, List.map_map]
    exact getById_map (fun y => by
      rw [Function.comp_apply, applyRank_id, applyRank_id]) hA1 hx
  have hmemT₂ : ∀ x ∈ R, applyRank (sortLane (laneTasks t.status R)) x
      ∈ normalizeStatusOrders t.status R := by
    intro x hx
    rw [e₂]
    exact List.mem_map_of_mem _ hx
  refine ⟨normalizeStatusOrders s (normalizeStatusOrders t.status R), hok, ?_, ?_, ?_, ?_, ?_⟩
  · rw [← hMid, hstored M hMR]
    have hf₁M : applyRank (sortLane (laneTasks t.status R)) M = M :=
      applyRank_of_status_ne hA1 hMR (fun he => hs ((hMstat.symm.trans he).symm ▸ rfl))
    rw [hf₁M]
    have hMlane : M ∈ laneTasks s (normalizeStatusOrders t.status R) := by
      rw [hLsT₂, hLsR]
      exact List.mem_append_right _ (List.mem_cons_self _ _)
    rw [happly₂ M hMlane, if_pos hMid]
  · intro x hxlane hxid
    have hxR : x ∈ laneTasks t.status R := by
      obtain ⟨hx1, hx2⟩ := mem_laneTasks.1 hxlane
      rw [hsplit] at hx1
      rcases List.mem_append.1 hx1 with hm1 | hm2
      · exact mem_laneTasks.2 ⟨hmem_l₁R x hm1, hx2⟩
      · rcases List.mem_cons.1 hm2 with rfl | hm3
        · exact absurd rfl hxid
        · exact mem_laneTasks.2 ⟨hmem_l₂R x hm3, hx2⟩
    have hxRmem : x ∈ R := (mem_laneTasks.1 hxR).1
    rw [hstored x hxRmem, happly₁ x hxR]
    have hxstat : ({ x with order := if x.order < t.order then x.order else x.order - 1 } : Task).status
        = x.status := rfl
    have hf₂ : applyRank (sortLane (laneTasks s (normalizeStatusOrders t.status R)))
        { x with order := if x.order < t.order then x.order else x.order - 1 }
        = { x with order := if x.order < t.order then x.order else x.order - 1 } := by
      refine applyRank_of_status_ne hA2 ?_ ?_
      · have := hmemT₂ x hxRmem
        rw [happly₁ x hxR] at this
        exact this
      · rw [hxstat, (mem_laneTasks.1 hxlane).2]
        exact Ne.symm hs
    rw [hf₂]
  · intro x hxlane
    obtain ⟨hx1, hx2⟩ := mem_laneTasks.1 hxlane
    have hxid : x.id ≠ t.id := by
      intro he
      have hxt : x = t := List.inj_on_of_nodup_map h hx1 ht he
      exact hs ((hxt ▸ hx2).symm ▸ rfl)
    have hxR : x ∈ R := by
      rw [hsplit] at hx1
      rcases List.mem_append.1 hx1 with hm1 | hm2
      · exact hmem_l₁R x hm1
      · rcases List.mem_cons.1 hm2 with rfl | hm3
        · exact absurd rfl hxid
        · exact hmem_l₂R x hm3
    have hf₁ : applyRank (sortLane (laneTasks t.status R)) x = x :=
      applyRank_of_status_ne hA1 hxR (fun he => hs ((hx2.symm.trans he).symm ▸ rfl))
    have hxlaneT₂ : x ∈ laneTasks s (normalizeStatusOrders t.status R) := by
      rw [hLsT₂]
      exact mem_laneTasks.2 ⟨hxR, hx2⟩
    rw [hstored x hxR, hf₁, happly₂ x hxlaneT₂, if_neg hxid]
  · intro x hx hxold hxs
    have hxid : x.id ≠ t.id := by
      intro he
      have hxt : x = t := List.inj_on_of_nodup_map h hx ht he
      exact hxold (by rw [hxt])
    have hxR : x ∈ R := by
      rw [hsplit] at hx
      rcases List.mem_append.1 hx with hm1 | hm2
      · exact hmem_l₁R x hm1
      · rcases List.mem_cons.1 hm2 with rfl | hm3
        · exact absurd rfl hxid
        · exact hmem_l₂R x hm3
    have hf₁ : applyRank (sortLane (laneTasks t.status R)) x = x :=
      applyRank_of_status_ne hA1 hxR hxold
    have hf₂ : applyRank (sortLane (laneTasks s (normalizeStatusOrders t.status R))) x = x := by
      refine applyRank_of_status_ne hA2 ?_ hxs
      have := hmemT₂ x hxR
      rw [hf₁] at this
      exact this
    rw [hstored x hxR, hf₁, hf₂]
  · have hp := (update_preserves h hD u time).2
    unfold applyOp at hp
    dsimp only at hp
    rw [hok] at hp
    exact hp

/-- Witness for C4: move the first of two `todo` tasks to the head of the
`done` lane. -/
theorem C4_move_across_lanes_witness :
    ∃ tasks',
      updateTask
          [(⟨10, "a", "", .todo, .medium, none, 0, 0, 0⟩ : Task),
           ⟨11, "b", "", .todo, .medium, none, 1, 0, 1⟩,
           ⟨12, "c", "", .done, .medium, none, 0, 0, 2⟩]
          { id := 10, status := some .done, order := some 0 } 50
        = .ok (tasks',
            { (⟨10, "a", "", .todo, .medium, none, 0, 0, 0⟩ : Task) with
              status := .done, order := 0, updatedAt := 50 })
      ∧ getById tasks' 10
          = some { (⟨10, "a", "", .todo, .medium, none, 0, 0, 0⟩ : Task) with
              status := .done, order := 0, updatedAt := 50 }
      ∧ Dense tasks' := by
  obtain ⟨tasks', h1, h2, _, _, _, h6⟩ :=
    @C4_move_across_lanes
      [(⟨10, "a", "", .todo, .medium, none, 0, 0, 0⟩ : Task),
       ⟨11, "b", "", .todo, .medium, none, 1, 0, 1⟩,
       ⟨12, "c", "", .done, .medium, none, 0, 0, 2⟩]
      (by decide) (by decide)
      ⟨10, "a", "", .todo, .medium, none, 0, 0, 0⟩ (by decide)
      .done (by decide) 0 (by decide) 50 (by decide) (by decide)
  exact ⟨tasks', h1, h2, h6⟩

/-!  Bootstrap-time persistence (C2). -/

/-- C2 (code bug, behaviour of the real `bootstrap`): the persistence round
trip never succeeds.  Every schema-valid persisted payload — even the
serialized empty collection — is handed to `normalizeOrders`, which throws
`TypeError` on every invocation (the missing semicolon before
`(Object.keys(buckets) ...)` turns the `normalized` initializer into a call
of the empty array literal), so constructing a store over any serialized
collection crashes instead of reproducing the collection.  A malformed-JSON
persisted value throws an uncaught `SyntaxError` out of `JSON.parse`
instead of resetting to the empty collection.  Only the absent,
empty-string and schema-mismatched paths reset to `[]` as the spec
describes. -/
theorem C2_persistence_bug :
    (∀ T : List Task, bootstrap (.valid T) = .error "TypeError: [] is not a function")
      ∧ (∀ T l : List Task, bootstrap (.valid T) ≠ .ok l)
      ∧ bootstrap .malformed = .error "SyntaxError: Unexpected token in JSON"
      ∧ (∀ l : List Task, bootstrap .malformed ≠ .ok l)
      ∧ bootstrap .absent = .ok []
      ∧ bootstrap .emptyStr = .ok []
      ∧ bootstrap .mismatched = .ok [] := by
  exact ⟨fun T => rfl, fun T l h => Except.noConfusion h, rfl,
    fun l h => Except.noConfusion h, rfl, rfl, rfl⟩

/-!  The filter predicate, clause for clause. -/

theorem keepTask_iff (f : TaskFilter) (t : Task) :
    keepTask f t = true ↔
      (t.status = .done → f.includeDone.getD false = true)
      ∧ (∀ s, f.status = some (.only s) → t.status = s)
      ∧ (∀ p, f.priority = some (.only p) → t.priority = p)
      ∧ (∀ bound, f.dueBefore = some bound → ∃ d, t.dueDate = some d ∧ d ≤ bound) := by
  unfold keepTask
  split
  next h1 =>
    constructor
    · intro h
      exact absurd h (by simp)
    · rintro ⟨hc1, -, -, -⟩
      exact absurd (hc1 h1.2) (by simpa using h1.1)
  next h1 =>
    split
    next h2 =>
      constructor
      · intro h
        exact absurd h (by simp)
      · rintro ⟨-, hc2, -, -⟩
        exfalso
        revert h2
        cases hf : f.status with
        | none => simp
        | some sc =>
          cases sc with
          | all => simp
          | only s => simp [hc2 s hf]
    next h2 =>
      split
      next h3 =>
        constructor
        · intro h
          exact absurd h (by simp)
        · rintro ⟨-, -, hc3, -⟩
          exfalso
          revert h3
          cases hf : f.priority with
          | none => simp
          | some pc =>
            cases pc with
            | all => simp
            | only p => simp [hc3 p hf]
      next h3 =>
        have hstat : ∀ s, f.status = some (.only s) → t.status = s := by
          intro s hf
          rw [hf] at h2
          by_contra hne
          exact h2 (by simpa using hne)
        have hprio : ∀ p, f.priority = some (.only p) → t.priority = p := by
          intro p hf
          rw [hf] at h3
          by_contra hne
          exact h3 (by simpa using hne)
        have hdone : t.status = .done → f.includeDone.getD false = true := by
          intro hd
          by_contra hne
          exact h1 ⟨by simpa using hne, hd⟩
        cases hdb : f.dueBefore with
        | none =>
          constructor
          · intro _
            exact ⟨hdone, hstat, hprio, fun bound hb => nomatch hb⟩
          · intro _
            rfl
        | some bound =>
          cases hdd : t.dueDate with
          | none =>
            constructor
            · intro h
              exact absurd h (by simp)
            · rintro ⟨-, -, -, hc4⟩
              obtain ⟨d, hd, -⟩ := hc4 bound rfl
              exact nomatch hd
          | some d =>
            constructor
            · intro h
              refine ⟨hdone, hstat, hprio, fun b hb => ?_⟩
              obtain rfl := Option.some.inj hb
              exact ⟨d, rfl, of_decide_eq_true h⟩
            · rintro ⟨-, -, -, hc4⟩
              obtain ⟨d', hd', hle⟩ := hc4 bound rfl
              obtain rfl := Option.some.inj hd'
              exact decide_eq_true hle

/-- C6: `applyFilters` is a pure filter keeping exactly the tasks satisfying
the AND of the active clauses: `done` tasks are excluded unless `includeDone`
is true; a named status (other than "all") restricts to that status; a named
priority likewise; a `dueBefore` bound excludes tasks with no due date and
tasks whose due date is strictly after the bound (a due date equal to the
bound is kept).  Consequently with `includeDone` false or absent the result
never contains a `done` task. -/
theorem C6_applyFilters_spec (tasks : List Task) (f : TaskFilter) :
    (∀ t, t ∈ applyFilters tasks f ↔ t ∈ tasks
      ∧ (t.status = .done → f.includeDone.getD false = true)
      ∧ (∀ s, f.status = some (.only s) → t.status = s)
      ∧ (∀ p, f.priority = some (.only p) → t.priority = p)
      ∧ (∀ bound, f.dueBefore = some bound → ∃ d, t.dueDate = some d ∧ d ≤ bound))
    ∧ (f.includeDone.getD false = false →
        ∀ t ∈ applyFilters tasks f, t.status ≠ .done) := by
  have hmem : ∀ t, t ∈ applyFilters tasks f ↔ t ∈ tasks ∧ keepTask f t = true := by
    intro t
    unfold applyFilters
    exact List.mem_filter
  constructor
  · intro t
    rw [hmem t, keepTask_iff]
  · intro hfalse t htm hdone
    obtain ⟨-, hkeep⟩ := (hmem t).1 htm
    obtain ⟨hc1, -, -, -⟩ := (keepTask_iff f t).1 hkeep
    rw [hfalse] at hc1
    exact absurd (hc1 hdone) (by simp)

/-- Witness for C6: an all-defaults filter keeps a `todo` task. -/
theorem C6_applyFilters_spec_witness :
    (⟨1, "a", "", .todo, .medium, none, 0, 0, 0⟩ : Task)
      ∈ applyFilters [(⟨1, "a", "", .todo, .medium, none, 0, 0, 0⟩ : Task)] {} :=
  ((C6_applyFilters_spec [(⟨1, "a", "", .todo, .medium, none, 0, 0, 0⟩ : Task)] {}).1 _).2
    ⟨by decide, fun hd => absurd hd (by decide), fun s hs => by simp at hs,
      fun p hp => by simp at hp, fun bound hb => by simp at hb⟩

/-!  The list ordering. -/

theorem listLe_imp_spec {a b : Task} (h : listLe a b) : specListLe a b := by
  rw [listLe_iff] at h
  unfold specListLe
  cases ha : a.status <;> cases hb : b.status <;>
    simp only [statusOrder, laneRank, ha, hb] at h ⊢ <;>
    first
    | exact h
    | tauto

/-- C7: `getTasks` never fails, returns all tasks of the collection (a
permutation of the store list) sorted by lane rank (todo before in-progress
before done), then `order` ascending, then `updatedAt` descending as
tie-break, and returns the empty sequence on the empty collection. -/
theorem C7_getTasks_sorted (tasks : List Task) :
    (getTasks tasks).Perm tasks
      ∧ List.Sorted specListLe (getTasks tasks)
      ∧ getTasks [] = [] := by
  refine ⟨List.perm_insertionSort listLe tasks, ?_, rfl⟩
  exact (List.sorted_insertionSort listLe tasks).imp (fun hab => listLe_imp_spec hab)

/-- C8 (code bug, concrete run): the store holds one `todo` task (id 0) and
two `done` tasks (ids 1, 2; orders 0, 1); the state satisfies the dense-order
invariant.  Dragging task 1 onto the `todo` column (intended outcome: task 1
at index 1 of the `todo` lane) makes `handleDragEnd` emit three updates — the
todo-lane pass moves task 1 into `todo`, but the later done-lane pass, whose
`untouched` re-append puts the moved task back at the end of its source lane,
emits a final `{ id 1, done, 1 }`.  After the store applies all issued
updates in order, task 1 is in status `done` again: the final state does not
renormalize to the intended drop outcome. -/
theorem C8_reorder_protocol_bug :
    NodupIds [(⟨0, "a", "", .todo, .medium, none, 0, 0, 0⟩ : Task),
              ⟨1, "b", "", .done, .medium, none, 0, 0, 1⟩,
              ⟨2, "c", "", .done, .medium, none, 1, 0, 2⟩]
    ∧ Dense [(⟨0, "a", "", .todo, .medium, none, 0, 0, 0⟩ : Task),
             ⟨1, "b", "", .done, .medium, none, 0, 0, 1⟩,
             ⟨2, "c", "", .done, .medium, none, 1, 0, 2⟩]
    ∧ handleDragEnd
        (getTasks [(⟨0, "a", "", .todo, .medium, none, 0, 0, 0⟩ : Task),
                   ⟨1, "b", "", .done, .medium, none, 0, 0, 1⟩,
                   ⟨2, "c", "", .done, .medium, none, 1, 0, 2⟩])
        defaultFilters 1 (some (.column .todo))
      = [⟨1, .todo, 1⟩, ⟨2, .done, 0⟩, ⟨1, .done, 1⟩]
    ∧ ((getById
          (runUpdates
            [(⟨0, "a", "", .todo, .medium, none, 0, 0, 0⟩ : Task),
             ⟨1, "b", "", .done, .medium, none, 0, 0, 1⟩,
             ⟨2, "c", "", .done, .medium, none, 1, 0, 2⟩]
            (handleDragEnd
              (getTasks [(⟨0, "a", "", .todo, .medium, none, 0, 0, 0⟩ : Task),
                         ⟨1, "b", "", .done, .medium, none, 0, 0, 1⟩,
                         ⟨2, "c", "", .done, .medium, none, 1, 0, 2⟩])
              defaultFilters 1 (some (.column .todo)))
            100) 1).map Task.status
        = some .done) := by
  refine ⟨by decide, by decide, by decide, by decide⟩

/-!  The drag protocol, part 2 (C9): positions in the recomputed buckets.
`statusBuckets` applied to the snapshot is, lane for lane, the store's lane
sorted by `order`; on a dense lane the task with `order = j` sits at index
`j`, so the board index of a task is exactly its stored `order`. -/

theorem nodupIds_of_perm {l l' : List Task} (hp : l.Perm l') (h : NodupIds l) :
    NodupIds l' := ((hp.map Task.id).nodup_iff).1 h

theorem statusBuckets_eq (T : List Task) (s : TaskStatus) :
    statusBuckets T s = List.insertionSort orderLe (laneTasks s T) := rfl

theorem statusBuckets_perm (T : List Task) (s : TaskStatus) :
    (statusBuckets T s).Perm (laneTasks s T) :=
  List.perm_insertionSort orderLe (laneTasks s T)

theorem nodupIds_bucket {T : List Task} (h : NodupIds T) (s : TaskStatus) :
    NodupIds (statusBuckets T s) :=
  nodupIds_of_perm (statusBuckets_perm T s).symm (nodupIds_lane h s)

/-- Sorting by the `order` comparator a list whose orders enumerate `0‥n-1`
reads the orders off as `0, 1, …, n-1`. -/
theorem bucketSort_map_key {L : List Task}
    (hperm : (L.map Task.order).Perm (List.range L.length)) :
    (List.insertionSort orderLe L).map Task.order = List.range L.length := by
  have hp : (List.insertionSort orderLe L).Perm L := List.perm_insertionSort orderLe L
  have hsorted : List.Sorted orderLe (List.insertionSort orderLe L) :=
    List.sorted_insertionSort orderLe L
  have hpw : List.Pairwise (fun a b : Task => a.order ≤ b.order)
      (List.insertionSort orderLe L) :=
    hsorted.imp (fun hr => (orderLe_iff _ _).1 hr)
  have hsorted' : List.Sorted (· ≤ ·) ((List.insertionSort orderLe L).map Task.order) :=
    (List.pairwise_map).2 hpw
  have hperm' : ((List.insertionSort orderLe L).map Task.order).Perm (List.range L.length) :=
    (hp.map Task.order).trans hperm
  exact List.eq_of_perm_of_sorted hperm' hsorted' (List.sorted_le_range L.length)

theorem bucket_map_order {T : List Task} {s : TaskStatus} (hDs : laneDense s T) :
    (statusBuckets T s).map Task.order = List.range (statusBuckets T s).length := by
  rw [statusBuckets_eq,
    (List.perm_insertionSort orderLe (laneTasks s T)).length_eq]
  exact bucketSort_map_key hDs

theorem rankFrom_shift (S : List Task) (x : Nat) :
    ∀ i, rankFrom i S x = (rankFrom 0 S x).map (fun r => r + i) := by
  induction S with
  | nil => intro i; rfl
  | cons t ts ih =>
    intro i
    by_cases hx : t.id = x
    · rw [show rankFrom i (t :: ts) x
          = if t.id = x then some i else rankFrom (i + 1) ts x from rfl,
        show rankFrom 0 (t :: ts) x
          = if t.id = x then some 0 else rankFrom 1 ts x from rfl,
        if_pos hx, if_pos hx]
      simp
    · rw [show rankFrom i (t :: ts) x
          = if t.id = x then some i else rankFrom (i + 1) ts x from rfl,
        show rankFrom 0 (t :: ts) x
          = if t.id = x then some 0 else rankFrom 1 ts x from rfl,
        if_neg hx, if_neg hx, ih (i + 1), ih 1, Option.map_map]
      congr 1
      funext r
      simp only [Function.comp_apply]
      omega

/-- The `findIndex`-style searches of App.tsx, read as `rankFrom`. -/
theorem findIdx?_eq_rankFrom (x : Nat) : ∀ (S : List Task) (i : Nat),
    S.findIdx? (fun t => t.id == x) i = rankFrom i S x := by
  intro S
  induction S with
  | nil => intro i; rfl
  | cons t ts ih =>
    intro i
    rw [List.findIdx?_cons, ih (i + 1),
      show rankFrom i (t :: ts) x
        = if t.id = x then some i else rankFrom (i + 1) ts x from rfl]
    by_cases hx : t.id = x
    · rw [if_pos (by simpa using hx), if_pos hx]
    · rw [if_neg (by simpa using hx), if_neg hx]

theorem findIdx_eq_of_rankFrom {x : Nat} : ∀ {S : List Task} {j : Nat},
    rankFrom 0 S x = some j → S.findIdx (fun t => t.id == x) = j := by
  intro S
  induction S with
  | nil => intro j h; exact absurd h (by rw [show rankFrom 0 ([] : List Task) x = none from rfl]; simp)
  | cons t ts ih =>
    intro j h
    rw [show rankFrom 0 (t :: ts) x
        = if t.id = x then some 0 else rankFrom 1 ts x from rfl] at h
    by_cases hx : t.id = x
    · rw [if_pos hx] at h
      obtain rfl : (0 : Nat) = j := Option.some.inj h
      rw [List.findIdx_cons]
      simp [hx]
    · rw [if_neg hx, rankFrom_shift ts x 1] at h
      cases hr : rankFrom 0 ts x with
      | none => rw [hr] at h; exact absurd h (by simp)
      | some j' =>
        rw [hr] at h
        simp only [Option.map_some'] at h
        have hj : j' + 1 = j := Option.some.inj h
        rw [List.findIdx_cons]
        have : (t.id == x) = false := by simpa using hx
        rw [this]
        simp only [cond_false]
        rw [ih hr, hj]

/-- On a list whose `order` values read off as `0‥n-1` with unique ids, each
member's first-match rank is its own `order`. -/
theorem rankFrom_of_map_range {S : List Task} (hnd : NodupIds S)
    (hkey : S.map Task.order = List.range S.length) :
    ∀ x ∈ S, rankFrom 0 S x.id = some x.order := by
  intro x hx
  obtain ⟨⟨j, hj⟩, hget⟩ := List.mem_iff_get.1 hx
  have hxo : x.order = j := by
    have hj2 : j < (S.map Task.order).length := by simpa using hj
    have h1 : (S.map Task.order)[j] = Task.order (S.get ⟨j, hj⟩) := by
      simp [List.getElem_map, List.get_eq_getElem]
    have h2 : (S.map Task.order)[j] = j := by
      rw [List.getElem_of_eq hkey hj2]; simp
    rw [hget] at h1
    rw [h1] at h2
    exact h2
  have hr := rankFrom_get hnd 0 j hj
  rw [hget] at hr
  rw [hxo]
  simpa using hr

/-- The board position of a lane member is exactly its stored `order`. -/
theorem bucket_rank {T : List Task} (h : NodupIds T) {s : TaskStatus}
    (hDs : laneDense s T) {x : Task} (hx : x ∈ laneTasks s T) :
    rankFrom 0 (statusBuckets T s) x.id = some x.order :=
  rankFrom_of_map_range (nodupIds_bucket h s) (bucket_map_order hDs)
    x ((statusBuckets_perm T s).mem_iff.2 hx)

theorem laneDense_of_perm {T T' : List Task} (hp : T'.Perm T) {s : TaskStatus}
    (hD : laneDense s T) : laneDense s T' := by
  unfold laneDense at *
  have hl : (laneTasks s T').Perm (laneTasks s T) := by
    unfold laneTasks
    exact hp.filter _
  rw [hl.length_eq]
  exact (hl.map Task.order).trans hD

/-- The initial view filter (`includeDone: true`, everything else unset)
keeps every task. -/
theorem applyFilters_default (L : List Task) : applyFilters L defaultFilters = L := by
  unfold applyFilters
  refine List.filter_eq_self.2 fun t _ => ?_
  unfold keepTask defaultFilters
  simp

theorem id_mem_bucket_iff {T : List Task} (h : NodupIds T) {x : Task} (hx : x ∈ T)
    (s : TaskStatus) :
    x.id ∈ (statusBuckets T s).map Task.id ↔ x.status = s := by
  constructor
  · intro hmem
    have hmem' : x.id ∈ (laneTasks s T).map Task.id :=
      ((statusBuckets_perm T s).map Task.id).mem_iff.1 hmem
    by_contra hne
    exact id_notMem_lane h hx hne hmem'
  · intro hs
    exact ((statusBuckets_perm T s).map Task.id).mem_iff.2
      (List.mem_map_of_mem Task.id (mem_laneTasks.2 ⟨hx, hs⟩))

theorem rankFrom_append_left {L₁ L₂ : List Task} {x : Nat}
    (h : x ∈ L₁.map Task.id) : ∀ i, rankFrom i (L₁ ++ L₂) x = rankFrom i L₁ x := by
  induction L₁ with
  | nil => simp at h
  | cons t ts ih =>
    intro i
    rw [List.cons_append,
      show rankFrom i (t :: (ts ++ L₂)) x
        = if t.id = x then some i else rankFrom (i + 1) (ts ++ L₂) x from rfl,
      show rankFrom i (t :: ts) x
        = if t.id = x then some i else rankFrom (i + 1) ts x from rfl]
    by_cases ht : t.id = x
    · rw [if_pos ht, if_pos ht]
    · have h' : x ∈ ts.map Task.id := by
        simp only [List.map_cons, List.mem_cons] at h
        exact h.resolve_left fun hh => ht hh.symm
      rw [if_neg ht, if_neg ht, ih h' (i + 1)]

theorem eraseIdx_append_middle (L₁ : List Task) (m : Task) (L₂ : List Task) :
    (L₁ ++ m :: L₂).eraseIdx L₁.length = L₁ ++ L₂ := by
  induction L₁ with
  | nil => rfl
  | cons a as ih =>
    rw [List.cons_append, List.length_cons, List.eraseIdx_cons_succ, ih, List.cons_append]

theorem get?_append_middle (L₁ : List Task) (m : Task) (L₂ : List Task) :
    (L₁ ++ m :: L₂).get? L₁.length = some m := by
  rw [List.get?_eq_getElem?, List.getElem?_append_right (Nat.le_refl _)]
  simp

/-- A successful first-match rank splits the list at the matching element. -/
theorem rankFrom_split {S : List Task} {x fi : Nat} (h : rankFrom 0 S x = some fi) :
    ∃ L₁ m L₂, S = L₁ ++ m :: L₂ ∧ L₁.length = fi ∧ m.id = x := by
  induction S generalizing fi with
  | nil => exact absurd h (by rw [show rankFrom 0 ([] : List Task) x = none from rfl]; simp)
  | cons t ts ih =>
    rw [show rankFrom 0 (t :: ts) x
        = if t.id = x then some 0 else rankFrom 1 ts x from rfl] at h
    by_cases ht : t.id = x
    · rw [if_pos ht] at h
      obtain rfl : (0 : Nat) = fi := Option.some.inj h
      exact ⟨[], t, ts, rfl, rfl, ht⟩
    · rw [if_neg ht, rankFrom_shift ts x 1] at h
      cases hr : rankFrom 0 ts x with
      | none => rw [hr] at h; exact absurd h (by simp)
      | some j =>
        rw [hr] at h
        simp only [Option.map_some'] at h
        have hfi : j + 1 = fi := Option.some.inj h
        obtain ⟨L₁, m, L₂, hS, hlen, hid⟩ := ih hr
        exact ⟨t :: L₁, m, L₂, by rw [hS]; rfl, by simp [hlen, ← hfi], hid⟩

/-!  What one `ordered.forEach` pass of `persistBuckets` emits. -/

theorem updatesFrom_ids {data : List Task} {s : TaskStatus} :
    ∀ (L : List Task) (i : Nat), ∀ u ∈ updatesFrom data s i L, u.id ∈ L.map Task.id := by
  intro L
  induction L with
  | nil =>
    intro i u hu
    exact absurd hu (by rw [show updatesFrom data s i [] = [] from rfl]; simp)
  | cons t ts ih =>
    intro i u hu
    rw [show updatesFrom data s i (t :: ts)
        = (match data.find? (fun o => o.id == t.id) with
           | none => ⟨t.id, s, i⟩ :: updatesFrom data s (i + 1) ts
           | some o =>
             if o.status ≠ s ∨ o.order ≠ i then ⟨t.id, s, i⟩ :: updatesFrom data s (i + 1) ts
             else updatesFrom data s (i + 1) ts) from rfl] at hu
    rw [List.map_cons]
    cases hfind : data.find? (fun o => o.id == t.id) with
    | none =>
      rw [hfind] at hu
      dsimp only at hu
      rcases List.mem_cons.1 hu with rfl | hm
      · exact List.mem_cons_self _ _
      · exact List.mem_cons_of_mem _ (ih (i + 1) u hm)
    | some o =>
      rw [hfind] at hu
      dsimp only at hu
      by_cases hneed : o.status ≠ s ∨ o.order ≠ i
      · rw [if_pos hneed] at hu
        rcases List.mem_cons.1 hu with rfl | hm
        · exact List.mem_cons_self _ _
        · exact List.mem_cons_of_mem _ (ih (i + 1) u hm)
      · rw [if_neg hneed] at hu
        exact List.mem_cons_of_mem _ (ih (i + 1) u hu)

/-- A task id receives an update from one pass over `ordered` (ids unique)
exactly when the id occurs in `ordered` — at first-match rank `j` — and the
snapshot record under that id is missing, in another lane, or at another
`order` than `j`. -/
theorem mem_updatesFrom_iff {data : List Task} {s : TaskStatus} {xid : Nat} :
    ∀ {L : List Task}, NodupIds L → ∀ i : Nat,
      ((∃ u ∈ updatesFrom data s i L, u.id = xid)
        ↔ ∃ j, rankFrom i L xid = some j
            ∧ ∀ o ∈ data.find? (fun t => t.id == xid), o.status ≠ s ∨ o.order ≠ j) := by
  intro L
  induction L with
  | nil =>
    intro _ i
    constructor
    · rintro ⟨u, hu, -⟩
      exact absurd hu (by rw [show updatesFrom data s i [] = [] from rfl]; simp)
    · rintro ⟨j, hj, -⟩
      exact absurd hj (by rw [show rankFrom i [] xid = none from rfl]; simp)
  | cons t ts ih =>
    intro hnd i
    have hnd' : NodupIds ts := by
      unfold NodupIds at hnd ⊢
      rw [List.map_cons, List.nodup_cons] at hnd
      exact hnd.2
    have hti : t.id ∉ ts.map Task.id := by
      unfold NodupIds at hnd
      rw [List.map_cons, List.nodup_cons] at hnd
      exact hnd.1
    rw [show updatesFrom data s i (t :: ts)
        = (match data.find? (fun o => o.id == t.id) with
           | none => ⟨t.id, s, i⟩ :: updatesFrom data s (i + 1) ts
           | some o =>
             if o.status ≠ s ∨ o.order ≠ i then ⟨t.id, s, i⟩ :: updatesFrom data s (i + 1) ts
             else updatesFrom data s (i + 1) ts) from rfl,
      show rankFrom i (t :: ts) xid
        = if t.id = xid then some i else rankFrom (i + 1) ts xid from rfl]
    by_cases ht : t.id = xid
    · rw [if_pos ht]
      have hnotail : ∀ u ∈ updatesFrom data s (i + 1) ts, u.id ≠ xid := by
        intro u hu he
        exact hti (by rw [ht, ← he]; exact updatesFrom_ids ts (i + 1) u hu)
      rw [ht]
      cases hfind : data.find? (fun o => o.id == xid) with
      | none =>
        dsimp only
        constructor
        · rintro -
          exact ⟨i, rfl, fun o ho => absurd ho (by simp)⟩
        · rintro -
          exact ⟨⟨xid, s, i⟩, List.mem_cons_self _ _, rfl⟩
      | some o =>
        dsimp only
        by_cases hneed : o.status ≠ s ∨ o.order ≠ i
        · rw [if_pos hneed]
          constructor
          · rintro -
            refine ⟨i, rfl, fun o' ho' => ?_⟩
            rw [Option.mem_def] at ho'
            obtain rfl : o = o' := Option.some.inj ho'
            exact hneed
          · rintro -
            exact ⟨⟨xid, s, i⟩, List.mem_cons_self _ _, rfl⟩
        · rw [if_neg hneed]
          push_neg at hneed
          constructor
          · rintro ⟨u, hu, he⟩
            exact absurd he (hnotail u hu)
          · rintro ⟨j, hj, hcond⟩
            obtain rfl : i = j := Option.some.inj hj
            rcases hcond o (by rw [Option.mem_def]) with h1 | h2
            · exact absurd hneed.1 h1
            · exact absurd hneed.2 h2
    · rw [if_neg ht]
      have hrest := ih hnd' (i + 1)
      cases hfind : data.find? (fun o => o.id == t.id) with
      | none =>
        dsimp only
        rw [← hrest]
        constructor
        · rintro ⟨u, hu, he⟩
          rcases List.mem_cons.1 hu with rfl | hm
          · exact absurd he ht
          · exact ⟨u, hm, he⟩
        · rintro ⟨u, hu, he⟩
          exact ⟨u, List.mem_cons_of_mem _ hu, he⟩
      | some o =>
        dsimp only
        by_cases hneed : o.status ≠ s ∨ o.order ≠ i
        · rw [if_pos hneed, ← hrest]
          constructor
          · rintro ⟨u, hu, he⟩
            rcases List.mem_cons.1 hu with rfl | hm
            · exact absurd he ht
            · exact ⟨u, hm, he⟩
          · rintro ⟨u, hu, he⟩
            exact ⟨u, List.mem_cons_of_mem _ hu, he⟩
        · rw [if_neg hneed, ← hrest]

/-- A pass over a list that already agrees with the snapshot — every listed
task is stored with this lane's status and with `order` equal to its listed
position — emits nothing. -/
theorem updatesFrom_nil_of_agree {data : List Task} {s : TaskStatus} :
    ∀ (L : List Task) (i : Nat),
      (∀ (j : Nat) (hj : j < L.length),
          data.find? (fun o => o.id == (L.get ⟨j, hj⟩).id) = some (L.get ⟨j, hj⟩)
            ∧ (L.get ⟨j, hj⟩).status = s ∧ (L.get ⟨j, hj⟩).order = i + j) →
      updatesFrom data s i L = [] := by
  intro L
  induction L with
  | nil => intro i _; rfl
  | cons t ts ih =>
    intro i hyp
    obtain ⟨hfind₀, hst₀, hord₀⟩ := hyp 0 (by simp)
    have hfind : data.find? (fun o => o.id == t.id) = some t := hfind₀
    have hst : t.status = s := hst₀
    have hord : t.order = i + 0 := hord₀
    rw [show updatesFrom data s i (t :: ts)
        = (match data.find? (fun o => o.id == t.id) with
           | none => ⟨t.id, s, i⟩ :: updatesFrom data s (i + 1) ts
           | some o =>
             if o.status ≠ s ∨ o.order ≠ i then ⟨t.id, s, i⟩ :: updatesFrom data s (i + 1) ts
             else updatesFrom data s (i + 1) ts) from rfl, hfind]
    dsimp only
    rw [if_neg (by push_neg; exact ⟨hst, by omega⟩)]
    refine ih (i + 1) fun j hj => ?_
    obtain ⟨h1, h2, h3⟩ := hyp (j + 1) (by simpa using Nat.succ_lt_succ hj)
    have h3' : (ts.get ⟨j, hj⟩).order = i + (j + 1) := h3
    exact ⟨h1, h2, by omega⟩

/-- A lane whose bucket is its own current board list emits nothing. -/
theorem updatesFrom_bucket_self_nil {data : List Task} (hnd : NodupIds data)
    {s : TaskStatus} (hDs : laneDense s data) :
    updatesFrom data s 0 (statusBuckets data s) = [] := by
  apply updatesFrom_nil_of_agree
  intro j hj
  have hmem : (statusBuckets data s).get ⟨j, hj⟩ ∈ statusBuckets data s :=
    (statusBuckets data s).get_mem _ _
  have hlane : (statusBuckets data s).get ⟨j, hj⟩ ∈ laneTasks s data :=
    (statusBuckets_perm data s).mem_iff.1 hmem
  refine ⟨getById_of_mem hnd (mem_laneTasks.1 hlane).1, (mem_laneTasks.1 hlane).2, ?_⟩
  have hmo := bucket_map_order hDs
  have hj2 : j < ((statusBuckets data s).map Task.order).length := by simpa using hj
  have h1 : ((statusBuckets data s).map Task.order)[j]
      = Task.order ((statusBuckets data s).get ⟨j, hj⟩) := by
    simp [List.getElem_map, List.get_eq_getElem]
  have h2 : ((statusBuckets data s).map Task.order)[j] = j := by
    rw [List.getElem_of_eq hmo hj2]; simp
  omega

theorem filter_not_contains_nil {L : List Task} {resIds : List Nat}
    (h : ∀ t ∈ L, t.id ∈ resIds) :
    L.filter (fun t => !(resIds.contains t.id)) = [] := by
  rw [List.filter_eq_nil_iff]
  intro t ht
  simp [List.contains, List.elem_iff, h t ht]

/-- The `untouched` re-append of a cross-lane source pass keeps exactly the
moved task: the reserved ids are all of the lane's except the moved one. -/
theorem untouched_split {L₁ L₂ : List Task} {m : Task}
    (hnd : NodupIds (L₁ ++ m :: L₂)) :
    (L₁ ++ m :: L₂).filter
        (fun t => !(((L₁ ++ L₂).map Task.id).contains t.id)) = [m] := by
  obtain ⟨hm₁, hm₂⟩ := nodupIds_split hnd rfl
  have h₁ : L₁.filter (fun t => !(((L₁ ++ L₂).map Task.id).contains t.id)) = [] :=
    filter_not_contains_nil fun t ht => by
      rw [List.map_append, List.mem_append]
      exact Or.inl (List.mem_map_of_mem Task.id ht)
  have h₂ : L₂.filter (fun t => !(((L₁ ++ L₂).map Task.id).contains t.id)) = [] :=
    filter_not_contains_nil fun t ht => by
      rw [List.map_append, List.mem_append]
      exact Or.inr (List.mem_map_of_mem Task.id ht)
  have hmkeep : (!(((L₁ ++ L₂).map Task.id).contains m.id)) = true := by
    have hnm : m.id ∉ (L₁ ++ L₂).map Task.id := by
      rw [List.map_append, List.mem_append]
      rintro (hmem | hmem)
      · exact hm₁ hmem
      · exact hm₂ hmem
    simp only [Bool.not_eq_true', ← Bool.not_eq_true]
    intro hcon
    exact hnm (by simpa [List.contains, List.elem_iff] using hcon)
  rw [List.filter_append, h₁,
    @List.filter_cons_of_pos Task (fun t => !(((L₁ ++ L₂).map Task.id).contains t.id)) m L₂
      hmkeep,
    h₂]
  rfl

/-- When the new bucket reserves every id of the lane, `untouched` is empty
and the pass walks the bucket alone. -/
theorem laneUpdates_eq_of_cover {data : List Task} {buckets : TaskStatus → List Task}
    {s : TaskStatus}
    (hcov : ∀ t ∈ statusBuckets data s, t.id ∈ (buckets s).map Task.id) :
    laneUpdates data buckets s = updatesFrom data s 0 (buckets s) := by
  show updatesFrom data s 0
      (buckets s
        ++ (statusBuckets data s).filter
            (fun t => !(((buckets s).map Task.id).contains t.id))) = _
  rw [filter_not_contains_nil hcov, List.append_nil]

/-- A lane that keeps its current bucket contributes no updates. -/
theorem laneUpdates_self_nil {data : List Task} {buckets : TaskStatus → List Task}
    {s : TaskStatus} (hb : buckets s = statusBuckets data s)
    (hnd : NodupIds data) (hDs : laneDense s data) :
    laneUpdates data buckets s = [] := by
  rw [laneUpdates_eq_of_cover (by rw [hb]; exact fun t ht => List.mem_map_of_mem Task.id ht),
    hb, updatesFrom_bucket_self_nil hnd hDs]

/-- The cross-lane source pass: bucket = lane minus the moved task, so the
pass walks the shortened lane with the moved task re-appended at its end. -/
theorem laneUpdates_source_split {data : List Task} {buckets : TaskStatus → List Task}
    {s : TaskStatus} {L₁ L₂ : List Task} {m : Task}
    (hsplit : statusBuckets data s = L₁ ++ m :: L₂)
    (hb : buckets s = L₁ ++ L₂)
    (hnd : NodupIds data) :
    laneUpdates data buckets s = updatesFrom data s 0 ((L₁ ++ L₂) ++ [m]) := by
  show updatesFrom data s 0
      (buckets s
        ++ (statusBuckets data s).filter
            (fun t => !(((buckets s).map Task.id).contains t.id))) = _
  rw [hb, hsplit, untouched_split (hsplit ▸ nodupIds_bucket hnd s)]

theorem spliceInsert_perm (l : List Task) (i : Nat) (a : Task) :
    (spliceInsert l i a).Perm (a :: l) := by
  unfold spliceInsert
  calc (l.take i ++ a :: l.drop i).Perm (a :: (l.take i ++ l.drop i)) := List.perm_middle
    _ = a :: l := by rw [List.take_append_drop]

theorem mem_persistBucketUpdates {data : List Task} {buckets : TaskStatus → List Task}
    {xid : Nat} :
    (∃ u ∈ persistBucketUpdates data buckets, u.id = xid)
      ↔ ∃ s, ∃ u ∈ laneUpdates data buckets s, u.id = xid := by
  unfold persistBucketUpdates
  constructor
  · rintro ⟨u, hu, hid⟩
    rcases List.mem_append.1 hu with h₁₂ | h₃
    · rcases List.mem_append.1 h₁₂ with h₁ | h₂
      · exact ⟨.todo, u, h₁, hid⟩
      · exact ⟨.inProgress, u, h₂, hid⟩
    · exact ⟨.done, u, h₃, hid⟩
  · rintro ⟨s, u, hu, hid⟩
    refine ⟨u, ?_, hid⟩
    cases s
    · exact List.mem_append.2 (Or.inl (List.mem_append.2 (Or.inl hu)))
    · exact List.mem_append.2 (Or.inl (List.mem_append.2 (Or.inr hu)))
    · exact List.mem_append.2 (Or.inr hu)

/-- One-pass membership, against a snapshot that stores `x` itself. -/
theorem pass_mem_iff {data : List Task} (hnd : NodupIds data) {s : TaskStatus}
    {ordered : List Task} (hord : NodupIds ordered) {x : Task} (hx : x ∈ data) :
    ((∃ u ∈ updatesFrom data s 0 ordered, u.id = x.id)
      ↔ ∃ j, rankFrom 0 ordered x.id = some j ∧ (x.status ≠ s ∨ x.order ≠ j)) := by
  rw [mem_updatesFrom_iff hord 0]
  have hfind : data.find? (fun t => t.id == x.id) = some x := getById_of_mem hnd hx
  constructor
  · rintro ⟨j, hj, hcond⟩
    exact ⟨j, hj, hcond x (by rw [Option.mem_def, hfind])⟩
  · rintro ⟨j, hj, hcond⟩
    refine ⟨j, hj, fun o ho => ?_⟩
    rw [Option.mem_def, hfind] at ho
    obtain rfl : x = o := Option.some.inj ho
    exact hcond

/-- One-pass membership for a lane member present in the walked list: the
task receives an update exactly when its listed position differs from its
stored `order`. -/
theorem pass_mem_iff_rank {data : List Task} (hnd : NodupIds data) {s : TaskStatus}
    {ordered : List Task} (hord : NodupIds ordered) {x : Task} (hx : x ∈ data)
    (hs : x.status = s) (hmem : x.id ∈ ordered.map Task.id) :
    ((∃ u ∈ updatesFrom data s 0 ordered, u.id = x.id)
      ↔ rankFrom 0 ordered x.id ≠ some x.order) := by
  rw [pass_mem_iff hnd hord hx]
  obtain ⟨j, hj⟩ := rankFrom_isSome hmem 0
  rw [hj]
  constructor
  · rintro ⟨j', hj', hcond⟩
    obtain rfl : j = j' := Option.some.inj hj'
    rcases hcond with hst | hordne
    · exact absurd hs hst
    · intro hcontra
      exact hordne (Option.some.inj hcontra).symm
  · intro hne
    refine ⟨j, rfl, Or.inr fun he => hne ?_⟩
    rw [he]

theorem pass_not_mem {data : List Task} {s : TaskStatus} {ordered : List Task} {xid : Nat}
    (hx : xid ∉ ordered.map Task.id) :
    ¬ ∃ u ∈ updatesFrom data s 0 ordered, u.id = xid := by
  rintro ⟨u, hu, hid⟩
  exact hx (hid ▸ updatesFrom_ids ordered 0 u hu)

/-!  Reduction of `handleDragEnd` once the drag is resolved: the early-out,
the same-lane `arrayMove`, and the cross-lane splice. -/

theorem handleDragEnd_noop_eq {data : List Task} {filters : TaskFilter} {activeTask : Task}
    (hfind : data.find? (fun t => t.id == activeTask.id) = some activeTask)
    {target : DropTarget} {targetIndex : Nat}
    (hres : resolveTarget data (applyFilters data filters) target
        = some (activeTask.status, targetIndex))
    (hfi : (statusBuckets (applyFilters data filters) activeTask.status).findIdx?
        (fun t => t.id == activeTask.id) = some targetIndex) :
    handleDragEnd data filters activeTask.id (some target) = [] := by
  unfold handleDragEnd
  dsimp only
  rw [hfind]
  dsimp only
  rw [hres]
  dsimp only
  rw [hfi]
  dsimp only
  rw [if_pos rfl, if_pos rfl]

theorem handleDragEnd_same_eq {data : List Task} {filters : TaskFilter} {activeTask : Task}
    (hfind : data.find? (fun t => t.id == activeTask.id) = some activeTask)
    {target : DropTarget} {targetIndex fromIndex : Nat}
    (hres : resolveTarget data (applyFilters data filters) target
        = some (activeTask.status, targetIndex))
    (hfi : (statusBuckets (applyFilters data filters) activeTask.status).findIdx?
        (fun t => t.id == activeTask.id) = some fromIndex)
    (hne : fromIndex ≠ targetIndex) :
    handleDragEnd data filters activeTask.id (some target)
      = persistBucketUpdates data
          (dropBuckets (applyFilters data filters) activeTask.status activeTask.status
            fromIndex targetIndex activeTask) := by
  unfold handleDragEnd
  dsimp only
  rw [hfind]
  dsimp only
  rw [hres]
  dsimp only
  rw [hfi]
  dsimp only
  rw [if_pos rfl, if_neg hne]

theorem handleDragEnd_cross_eq {data : List Task} {filters : TaskFilter} {activeTask : Task}
    (hfind : data.find? (fun t => t.id == activeTask.id) = some activeTask)
    {target : DropTarget} {targetStatus : TaskStatus} {targetIndex fromIndex : Nat}
    {movedTask : Task}
    (hres : resolveTarget data (applyFilters data filters) target
        = some (targetStatus, targetIndex))
    (hfi : (statusBuckets (applyFilters data filters) activeTask.status).findIdx?
        (fun t => t.id == activeTask.id) = some fromIndex)
    (hst : activeTask.status ≠ targetStatus)
    (hget : (statusBuckets (applyFilters data filters) activeTask.status).get? fromIndex
        = some movedTask) :
    handleDragEnd data filters activeTask.id (some target)
      = persistBucketUpdates data
          (dropBuckets (applyFilters data filters) activeTask.status targetStatus
            fromIndex targetIndex movedTask) := by
  unfold handleDragEnd
  dsimp only
  rw [hfind]
  dsimp only
  rw [hres]
  dsimp only
  rw [hfi]
  dsimp only
  rw [if_neg hst]
  rw [hget]

theorem arrayMove_eq_splice {L₁ L₂ : List Task} {m : Task} (ti : Nat) :
    arrayMove (L₁ ++ m :: L₂) L₁.length ti = spliceInsert (L₁ ++ L₂) ti m := by
  unfold arrayMove
  rw [get?_append_middle, eraseIdx_append_middle]

theorem dropBuckets_same_eval {filtered : List Task} {σ : TaskStatus} {fi ti : Nat}
    {m : Task} (s : TaskStatus) :
    dropBuckets filtered σ σ fi ti m s
      = if s = σ then arrayMove (statusBuckets filtered σ) fi ti
        else statusBuckets filtered s := by
  unfold dropBuckets
  rw [if_pos rfl]

theorem dropBuckets_cross_eval {filtered : List Task} {σ τ : TaskStatus} (hne : σ ≠ τ)
    {fi ti : Nat} {m : Task} (s : TaskStatus) :
    dropBuckets filtered σ τ fi ti m s
      = if s = σ then (statusBuckets filtered σ).eraseIdx fi
        else if s = τ then
          spliceInsert (statusBuckets filtered τ) ti { m with status := τ }
        else statusBuckets filtered s := by
  unfold dropBuckets
  rw [if_neg hne]

/-- Core of C9, effect direction: on an id-unique, dense store, for a drag
that resolves to (target lane, target index) and is not the same-lane
same-index early-out, a stored task's id appears among the issued updates
exactly when its first-match rank in the intended bucket of its own lane
differs from its rank on the current board — i.e. exactly when its lane
membership (rank `none` vs `some`) or its positional index changed between
the current state and the intended outcome. -/
theorem dragEnd_mem_iff_core {data : List Task} (hnd : NodupIds data)
    (hDd : ∀ s, laneDense s data)
    {activeTask : Task} (ha : activeTask ∈ data)
    {target : DropTarget} {targetStatus : TaskStatus} {targetIndex fromIndex : Nat}
    (hres : resolveTarget data (applyFilters data defaultFilters) target
        = some (targetStatus, targetIndex))
    (hfi : (statusBuckets (applyFilters data defaultFilters) activeTask.status).findIdx?
        (fun t => t.id == activeTask.id) = some fromIndex)
    (hne : ¬ (targetStatus = activeTask.status ∧ targetIndex = fromIndex)) :
    ∀ x ∈ data,
      ((∃ u ∈ handleDragEnd data defaultFilters activeTask.id (some target), u.id = x.id)
        ↔ rankFrom 0
            (dropBuckets (applyFilters data defaultFilters) activeTask.status targetStatus
              fromIndex targetIndex activeTask x.status) x.id
          ≠ rankFrom 0 (statusBuckets (applyFilters data defaultFilters) x.status) x.id) := by
  intro x hx
  have hfil : applyFilters data defaultFilters = data := applyFilters_default data
  have hfi' := hfi
  rw [hfil] at hfi'
  rw [hfil]
  have hfind : data.find? (fun t => t.id == activeTask.id) = some activeTask :=
    getById_of_mem hnd ha
  have hcur : rankFrom 0 (statusBuckets data x.status) x.id = some x.order :=
    bucket_rank hnd (hDd x.status) (mem_laneTasks.2 ⟨hx, rfl⟩)
  rw [hcur]
  have hrankA : rankFrom 0 (statusBuckets data activeTask.status) activeTask.id
      = some fromIndex := by
    rw [← findIdx?_eq_rankFrom]
    exact hfi'
  obtain ⟨L₁, m, L₂, hsplit, hlen, hmid⟩ := rankFrom_split hrankA
  have hmbucket : m ∈ statusBuckets data activeTask.status := by
    rw [hsplit]
    exact List.mem_append.2 (Or.inr (List.mem_cons_self _ _))
  have hmdata : m ∈ data :=
    (mem_laneTasks.1 ((statusBuckets_perm _ _).mem_iff.1 hmbucket)).1
  have hma : activeTask = m := List.inj_on_of_nodup_map hnd ha hmdata hmid.symm
  subst hma
  obtain ⟨hnotinL₁, hnotinL₂⟩ :=
    nodupIds_split (nodupIds_bucket hnd activeTask.status) hsplit
  by_cases hσt : activeTask.status = targetStatus
  · -- same-lane reorder by arrayMove
    subst hσt
    have hidx : fromIndex ≠ targetIndex := fun he => hne ⟨rfl, he.symm⟩
    rw [handleDragEnd_same_eq hfind hres hfi hidx, hfil]
    have hAM : arrayMove (statusBuckets data activeTask.status) fromIndex targetIndex
        = spliceInsert (L₁ ++ L₂) targetIndex activeTask := by
      rw [hsplit, ← hlen, arrayMove_eq_splice]
    have hAMperm : (spliceInsert (L₁ ++ L₂) targetIndex activeTask).Perm
        (statusBuckets data activeTask.status) := by
      rw [hsplit]
      exact (spliceInsert_perm _ _ _).trans List.perm_middle.symm
    have hAMnd : NodupIds (spliceInsert (L₁ ++ L₂) targetIndex activeTask) :=
      nodupIds_of_perm hAMperm.symm (nodupIds_bucket hnd _)
    have hBσ : dropBuckets data activeTask.status activeTask.status fromIndex targetIndex
        activeTask activeTask.status = spliceInsert (L₁ ++ L₂) targetIndex activeTask := by
      rw [dropBuckets_same_eval, if_pos rfl, hAM]
    have hBother : ∀ s, s ≠ activeTask.status →
        dropBuckets data activeTask.status activeTask.status fromIndex targetIndex
          activeTask s = statusBuckets data s := by
      intro s hs
      rw [dropBuckets_same_eval, if_neg hs]
    have hUσ : laneUpdates data
        (dropBuckets data activeTask.status activeTask.status fromIndex targetIndex
          activeTask) activeTask.status
        = updatesFrom data activeTask.status 0
            (spliceInsert (L₁ ++ L₂) targetIndex activeTask) := by
      have hcov : ∀ t ∈ statusBuckets data activeTask.status,
          t.id ∈ ((dropBuckets data activeTask.status activeTask.status fromIndex
            targetIndex activeTask) activeTask.status).map Task.id := by
        intro t ht
        rw [hBσ]
        exact ((hAMperm.map Task.id).mem_iff).2 (List.mem_map_of_mem Task.id ht)
      rw [laneUpdates_eq_of_cover hcov, hBσ]
    have hUother : ∀ s, s ≠ activeTask.status →
        laneUpdates data
          (dropBuckets data activeTask.status activeTask.status fromIndex targetIndex
            activeTask) s = [] :=
      fun s hs => laneUpdates_self_nil (hBother s hs) hnd (hDd s)
    rw [mem_persistBucketUpdates]
    by_cases hxσ : x.status = activeTask.status
    · have hxbucket : x ∈ statusBuckets data activeTask.status :=
        (statusBuckets_perm _ _).mem_iff.2 (mem_laneTasks.2 ⟨hx, hxσ⟩)
      have hmemSP : x.id ∈ (spliceInsert (L₁ ++ L₂) targetIndex activeTask).map Task.id :=
        ((hAMperm.map Task.id).mem_iff).2 (List.mem_map_of_mem Task.id hxbucket)
      have hpass := pass_mem_iff_rank hnd hAMnd hx hxσ hmemSP
      rw [hxσ, hBσ]
      constructor
      · rintro ⟨s, u, hu, hid⟩
        by_cases hs : s = activeTask.status
        · subst hs
          rw [hUσ] at hu
          exact hpass.1 ⟨u, hu, hid⟩
        · rw [hUother s hs] at hu
          exact absurd hu (List.not_mem_nil u)
      · intro hrhs
        refine ⟨activeTask.status, ?_⟩
        rw [hUσ]
        exact hpass.2 hrhs
    · refine iff_of_false ?_ ?_
      · rintro ⟨s, u, hu, hid⟩
        by_cases hs : s = activeTask.status
        · subst hs
          rw [hUσ] at hu
          have hmem : x.id ∈ (spliceInsert (L₁ ++ L₂) targetIndex activeTask).map Task.id :=
            hid ▸ updatesFrom_ids _ 0 u hu
          have hmem' : x.id ∈ (statusBuckets data activeTask.status).map Task.id :=
            (hAMperm.map Task.id).mem_iff.1 hmem
          exact hxσ ((id_mem_bucket_iff hnd hx _).1 hmem')
        · rw [hUother s hs] at hu
          exact absurd hu (List.not_mem_nil u)
      · rw [hBother x.status hxσ, hcur]
        simp
  · -- cross-lane move
    have hget : (statusBuckets (applyFilters data defaultFilters)
        activeTask.status).get? fromIndex = some activeTask := by
      rw [hfil, hsplit, ← hlen]
      exact get?_append_middle L₁ activeTask L₂
    rw [handleDragEnd_cross_eq hfind hres hfi hσt hget, hfil]
    have hτσ : targetStatus ≠ activeTask.status := fun he => hσt he.symm
    have hSPperm : (spliceInsert (statusBuckets data targetStatus) targetIndex
          { activeTask with status := targetStatus }).Perm
        ({ activeTask with status := targetStatus } :: statusBuckets data targetStatus) :=
      spliceInsert_perm _ _ _
    have hAidNotInτ : activeTask.id ∉ (statusBuckets data targetStatus).map Task.id := by
      intro hmem
      exact hσt ((id_mem_bucket_iff hnd ha targetStatus).1 hmem)
    have hSPnd : NodupIds (spliceInsert (statusBuckets data targetStatus) targetIndex
        { activeTask with status := targetStatus }) := by
      apply nodupIds_of_perm hSPperm.symm
      unfold NodupIds
      rw [List.map_cons, List.nodup_cons]
      exact ⟨hAidNotInτ, nodupIds_bucket hnd targetStatus⟩
    have hOrdperm : ((L₁ ++ L₂) ++ [activeTask]).Perm
        (statusBuckets data activeTask.status) := by
      rw [hsplit]
      exact (List.perm_append_singleton _ _).trans List.perm_middle.symm
    have hOrdnd : NodupIds ((L₁ ++ L₂) ++ [activeTask]) :=
      nodupIds_of_perm hOrdperm.symm (nodupIds_bucket hnd _)
    have hBσ : dropBuckets data activeTask.status targetStatus fromIndex targetIndex
        activeTask activeTask.status = L₁ ++ L₂ := by
      rw [dropBuckets_cross_eval hσt, if_pos rfl, hsplit, ← hlen, eraseIdx_append_middle]
    have hBτ : dropBuckets data activeTask.status targetStatus fromIndex targetIndex
        activeTask targetStatus
        = spliceInsert (statusBuckets data targetStatus) targetIndex
            { activeTask with status := targetStatus } := by
      rw [dropBuckets_cross_eval hσt, if_neg hτσ, if_pos rfl]
    have hBother : ∀ s, s ≠ activeTask.status → s ≠ targetStatus →
        dropBuckets data activeTask.status targetStatus fromIndex targetIndex
          activeTask s = statusBuckets data s := by
      intro s h1 h2
      rw [dropBuckets_cross_eval hσt, if_neg h1, if_neg h2]
    have hUσ : laneUpdates data
        (dropBuckets data activeTask.status targetStatus fromIndex targetIndex activeTask)
        activeTask.status
        = updatesFrom data activeTask.status 0 ((L₁ ++ L₂) ++ [activeTask]) :=
      laneUpdates_source_split hsplit hBσ hnd
    have hUτ : laneUpdates data
        (dropBuckets data activeTask.status targetStatus fromIndex targetIndex activeTask)
        targetStatus
        = updatesFrom data targetStatus 0
            (spliceInsert (statusBuckets data targetStatus) targetIndex
              { activeTask with status := targetStatus }) := by
      have hcov : ∀ t ∈ statusBuckets data targetStatus,
          t.id ∈ ((dropBuckets data activeTask.status targetStatus fromIndex targetIndex
            activeTask) targetStatus).map Task.id := by
        intro t ht
        rw [hBτ]
        exact ((hSPperm.map Task.id).mem_iff).2
          (List.mem_cons_of_mem _ (List.mem_map_of_mem Task.id ht))
      rw [laneUpdates_eq_of_cover hcov, hBτ]
    have hUother : ∀ s, s ≠ activeTask.status → s ≠ targetStatus →
        laneUpdates data
          (dropBuckets data activeTask.status targetStatus fromIndex targetIndex
            activeTask) s = [] :=
      fun s h1 h2 => laneUpdates_self_nil (hBother s h1 h2) hnd (hDd s)
    rw [mem_persistBucketUpdates]
    by_cases hxa : x.id = activeTask.id
    · obtain rfl : activeTask = x := (List.inj_on_of_nodup_map hnd hx ha hxa).symm
      refine iff_of_true ?_ ?_
      · refine ⟨targetStatus, ?_⟩
        rw [hUτ]
        rw [pass_mem_iff hnd hSPnd ha]
        obtain ⟨j, hj⟩ := rankFrom_isSome
          (((hSPperm.map Task.id).mem_iff).2 (List.mem_cons_self _ _)) 0
        exact ⟨j, hj, Or.inl hσt⟩
      · rw [hBσ]
        have hnm : activeTask.id ∉ (L₁ ++ L₂).map Task.id := by
          rw [List.map_append, List.mem_append]
          rintro (hm | hm)
          · exact hnotinL₁ hm
          · exact hnotinL₂ hm
        rw [rankFrom_eq_none hnm 0]
        simp
    · by_cases hxσ : x.status = activeTask.status
      · have hxbucket : x ∈ statusBuckets data activeTask.status :=
          (statusBuckets_perm _ _).mem_iff.2 (mem_laneTasks.2 ⟨hx, hxσ⟩)
        have hxL : x ∈ L₁ ++ L₂ := by
          rw [hsplit] at hxbucket
          rcases List.mem_append.1 hxbucket with h1 | h2
          · exact List.mem_append.2 (Or.inl h1)
          · rcases List.mem_cons.1 h2 with rfl | h3
            · exact absurd rfl hxa
            · exact List.mem_append.2 (Or.inr h3)
        have hmemOrd : x.id ∈ ((L₁ ++ L₂) ++ [activeTask]).map Task.id := by
          rw [List.map_append, List.mem_append]
          exact Or.inl (List.mem_map_of_mem Task.id hxL)
        have hrankOrd : rankFrom 0 ((L₁ ++ L₂) ++ [activeTask]) x.id
            = rankFrom 0 (L₁ ++ L₂) x.id :=
          rankFrom_append_left (List.mem_map_of_mem Task.id hxL) 0
        have hpass := pass_mem_iff_rank hnd hOrdnd hx hxσ hmemOrd
        rw [hrankOrd] at hpass
        rw [hxσ, hBσ]
        constructor
        · rintro ⟨s, u, hu, hid⟩
          by_cases hs1 : s = activeTask.status
          · subst hs1
            rw [hUσ] at hu
            exact hpass.1 ⟨u, hu, hid⟩
          · by_cases hs2 : s = targetStatus
            · obtain rfl : targetStatus = s := hs2.symm
              rw [hUτ] at hu
              have hmem : x.id ∈ (spliceInsert (statusBuckets data targetStatus)
                  targetIndex { activeTask with status := targetStatus }).map Task.id :=
                hid ▸ updatesFrom_ids _ 0 u hu
              rcases List.mem_cons.1 ((hSPperm.map Task.id).mem_iff.1 hmem) with he | hmem'
              · exact absurd he hxa
              · exact absurd ((id_mem_bucket_iff hnd hx targetStatus).1 hmem')
                  (by rw [hxσ]; exact hσt)
            · rw [hUother s hs1 hs2] at hu
              exact absurd hu (List.not_mem_nil u)
        · intro hrhs
          refine ⟨activeTask.status, ?_⟩
          rw [hUσ]
          exact hpass.2 hrhs
      · by_cases hxτ : x.status = targetStatus
        · have hxbucketτ : x ∈ statusBuckets data targetStatus :=
            (statusBuckets_perm _ _).mem_iff.2 (mem_laneTasks.2 ⟨hx, hxτ⟩)
          have hmemSP : x.id ∈ (spliceInsert (statusBuckets data targetStatus)
              targetIndex { activeTask with status := targetStatus }).map Task.id :=
            ((hSPperm.map Task.id).mem_iff).2
              (List.mem_cons_of_mem _ (List.mem_map_of_mem Task.id hxbucketτ))
          have hpass := pass_mem_iff_rank hnd hSPnd hx hxτ hmemSP
          rw [hxτ, hBτ]
          constructor
          · rintro ⟨s, u, hu, hid⟩
            by_cases hs1 : s = activeTask.status
            · subst hs1
              rw [hUσ] at hu
              have hmem : x.id ∈ (((L₁ ++ L₂) ++ [activeTask]).map Task.id) :=
                hid ▸ updatesFrom_ids _ 0 u hu
              rw [List.map_append, List.mem_append] at hmem
              rcases hmem with hmem' | hmem''
              · rw [List.map_append, List.mem_append] at hmem'
                have hbm : x.id ∈ (statusBuckets data activeTask.status).map Task.id := by
                  rw [hsplit, List.map_append]
                  rcases hmem' with h1 | h2
                  · exact List.mem_append.2 (Or.inl h1)
                  · exact List.mem_append.2 (Or.inr (List.mem_cons_of_mem _ h2))
                exact absurd ((id_mem_bucket_iff hnd hx _).1 hbm) hxσ
              · exact absurd (by simpa using hmem'') hxa
            · by_cases hs2 : s = targetStatus
              · obtain rfl : targetStatus = s := hs2.symm
                rw [hUτ] at hu
                exact hpass.1 ⟨u, hu, hid⟩
              · rw [hUother s hs1 hs2] at hu
                exact absurd hu (List.not_mem_nil u)
          · intro hrhs
            refine ⟨targetStatus, ?_⟩
            rw [hUτ]
            exact hpass.2 hrhs
        · refine iff_of_false ?_ ?_
          · rintro ⟨s, u, hu, hid⟩
            by_cases hs1 : s = activeTask.status
            · subst hs1
              rw [hUσ] at hu
              have hmem : x.id ∈ (((L₁ ++ L₂) ++ [activeTask]).map Task.id) :=
                hid ▸ updatesFrom_ids _ 0 u hu
              rw [List.map_append, List.mem_append] at hmem
              rcases hmem with hmem' | hmem''
              · rw [List.map_append, List.mem_append] at hmem'
                have hbm : x.id ∈ (statusBuckets data activeTask.status).map Task.id := by
                  rw [hsplit, List.map_append]
                  rcases hmem' with h1 | h2
                  · exact List.mem_append.2 (Or.inl h1)
                  · exact List.mem_append.2 (Or.inr (List.mem_cons_of_mem _ h2))
                exact absurd ((id_mem_bucket_iff hnd hx _).1 hbm) hxσ
              · exact absurd (by simpa using hmem'') hxa
            · by_cases hs2 : s = targetStatus
              · obtain rfl : targetStatus = s := hs2.symm
                rw [hUτ] at hu
                have hmem : x.id ∈ (spliceInsert (statusBuckets data targetStatus)
                    targetIndex { activeTask with status := targetStatus }).map Task.id :=
                  hid ▸ updatesFrom_ids _ 0 u hu
                rcases List.mem_cons.1 ((hSPperm.map Task.id).mem_iff.1 hmem) with he | hmem'
                · exact absurd he hxa
                · exact absurd ((id_mem_bucket_iff hnd hx targetStatus).1 hmem') hxτ
              · rw [hUother s hs1 hs2] at hu
                exact absurd hu (List.not_mem_nil u)
          · rw [hBother x.status hxσ hxτ, hcur]
            simp

/-- Core of C9, no-op direction: dropping onto a card of the same lane whose
board index equals the dragged task's own index is the early-out. -/
theorem dragEnd_noop_core {data : List Task} (hnd : NodupIds data)
    {activeTask : Task} (ha : activeTask ∈ data)
    {overTask : Task} (ho : overTask ∈ data)
    (hst : overTask.status = activeTask.status)
    {fi : Nat}
    (hover : (statusBuckets (applyFilters data defaultFilters) overTask.status).findIdx
        (fun t => t.id == overTask.id) = fi)
    (hfi : (statusBuckets (applyFilters data defaultFilters) activeTask.status).findIdx?
        (fun t => t.id == activeTask.id) = some fi) :
    handleDragEnd data defaultFilters activeTask.id (some (.card overTask.id)) = [] := by
  have hfindA : data.find? (fun t => t.id == activeTask.id) = some activeTask :=
    getById_of_mem hnd ha
  have hfindO : data.find? (fun t => t.id == overTask.id) = some overTask :=
    getById_of_mem hnd ho
  have hres : resolveTarget data (applyFilters data defaultFilters) (.card overTask.id)
      = some (activeTask.status, fi) := by
    unfold resolveTarget
    dsimp only
    rw [hfindO]
    dsimp only
    rw [hover, hst]
  exact handleDragEnd_noop_eq hfindA hres hfi

/-- C9 (§4.2 steps 2, 4–5): on an id-unique store satisfying the dense-order
invariant, viewed through the default (keep-everything) filter.  No-op half:
a drag completion whose drop target resolves to the dragged task's own lane
at the dragged task's own board index issues no `updateTask` calls and
leaves the store unchanged.  Effect half: for every other resolvable drag
completion, a stored task's id appears among the issued `updateTask` calls
if and only if its first-match position in the intended bucket of its
current lane (`dropBuckets`, the protocol's intended outcome; the position
is `none` exactly when the task leaves its lane) differs from its position
on the current board — i.e. exactly when its lane membership or its
positional index within its lane differs between the current state and the
intended outcome. -/
theorem C9_drag_frame (tasks : List Task) (h : NodupIds tasks) (hD : Dense tasks) :
    (∀ activeTask ∈ tasks, ∀ overTask ∈ tasks, ∀ fi : Nat, ∀ time : Nat,
        overTask.status = activeTask.status →
        (statusBuckets (applyFilters (getTasks tasks) defaultFilters)
            overTask.status).findIdx (fun t => t.id == overTask.id) = fi →
        (statusBuckets (applyFilters (getTasks tasks) defaultFilters)
            activeTask.status).findIdx? (fun t => t.id == activeTask.id) = some fi →
        handleDragEnd (getTasks tasks) defaultFilters activeTask.id
            (some (.card overTask.id)) = []
          ∧ runUpdates tasks
              (handleDragEnd (getTasks tasks) defaultFilters activeTask.id
                (some (.card overTask.id))) time = tasks)
    ∧ (∀ activeTask ∈ tasks, ∀ (target : DropTarget) (targetStatus : TaskStatus)
          (targetIndex fromIndex : Nat),
        resolveTarget (getTasks tasks) (applyFilters (getTasks tasks) defaultFilters)
            target = some (targetStatus, targetIndex) →
        (statusBuckets (applyFilters (getTasks tasks) defaultFilters)
            activeTask.status).findIdx? (fun t => t.id == activeTask.id)
          = some fromIndex →
        ¬ (targetStatus = activeTask.status ∧ targetIndex = fromIndex) →
        ∀ x ∈ tasks,
          ((∃ u ∈ handleDragEnd (getTasks tasks) defaultFilters activeTask.id
                (some target), u.id = x.id)
            ↔ rankFrom 0
                (dropBuckets (applyFilters (getTasks tasks) defaultFilters)
                  activeTask.status targetStatus fromIndex targetIndex activeTask
                  x.status) x.id
              ≠ rankFrom 0
                  (statusBuckets (applyFilters (getTasks tasks) defaultFilters)
                    x.status) x.id)) := by
  have hperm : (getTasks tasks).Perm tasks := List.perm_insertionSort listLe tasks
  have hnd : NodupIds (getTasks tasks) := nodupIds_of_perm hperm.symm h
  have hDd : ∀ s, laneDense s (getTasks tasks) := fun s => laneDense_of_perm hperm (hD s)
  constructor
  · intro activeTask haT overTask hoT fi time hst hover hfi
    have hnil := dragEnd_noop_core hnd (hperm.mem_iff.2 haT) (hperm.mem_iff.2 hoT)
      hst hover hfi
    refine ⟨hnil, ?_⟩
    rw [hnil]
    rfl
  · intro activeTask haT target targetStatus targetIndex fromIndex hres hfi hne x hxT
    exact dragEnd_mem_iff_core hnd hDd (hperm.mem_iff.2 haT) hres hfi hne
      x (hperm.mem_iff.2 hxT)

/-- Witness for C9: on the three-task store, dropping the first `done` card
(id 1) onto itself is a no-op, and for the cross-lane drag of id 1 onto the
`todo` column, the other `done` task (id 2) — whose index shifts from 1 to 0
when the moved card leaves — does receive an update. -/
theorem C9_drag_frame_witness :
    (handleDragEnd
        (getTasks [(⟨0, "a", "", .todo, .medium, none, 0, 0, 0⟩ : Task),
                   ⟨1, "b", "", .done, .medium, none, 0, 0, 1⟩,
                   ⟨2, "c", "", .done, .medium, none, 1, 0, 2⟩])
        defaultFilters 1 (some (.card 1)) = [])
    ∧ runUpdates
        [(⟨0, "a", "", .todo, .medium, none, 0, 0, 0⟩ : Task),
         ⟨1, "b", "", .done, .medium, none, 0, 0, 1⟩,
         ⟨2, "c", "", .done, .medium, none, 1, 0, 2⟩]
        (handleDragEnd
          (getTasks [(⟨0, "a", "", .todo, .medium, none, 0, 0, 0⟩ : Task),
                     ⟨1, "b", "", .done, .medium, none, 0, 0, 1⟩,
                     ⟨2, "c", "", .done, .medium, none, 1, 0, 2⟩])
          defaultFilters 1 (some (.card 1))) 50
      = [(⟨0, "a", "", .todo, .medium, none, 0, 0, 0⟩ : Task),
         ⟨1, "b", "", .done, .medium, none, 0, 0, 1⟩,
         ⟨2, "c", "", .done, .medium, none, 1, 0, 2⟩]
    ∧ ∃ u ∈ handleDragEnd
        (getTasks [(⟨0, "a", "", .todo, .medium, none, 0, 0, 0⟩ : Task),
                   ⟨1, "b", "", .done, .medium, none, 0, 0, 1⟩,
                   ⟨2, "c", "", .done, .medium, none, 1, 0, 2⟩])
        defaultFilters 1 (some (.column .todo)), u.id = 2 := by
  have H := C9_drag_frame
    [(⟨0, "a", "", .todo, .medium, none, 0, 0, 0⟩ : Task),
     ⟨1, "b", "", .done, .medium, none, 0, 0, 1⟩,
     ⟨2, "c", "", .done, .medium, none, 1, 0, 2⟩]
    (by decide) (by decide)
  have H1 := H.1 ⟨1, "b", "", .done, .medium, none, 0, 0, 1⟩ (by decide)
    ⟨1, "b", "", .done, .medium, none, 0, 0, 1⟩ (by decide) 0 50 rfl
    (by decide) (by decide)
  have H2 := (H.2 ⟨1, "b", "", .done, .medium, none, 0, 0, 1⟩ (by decide)
    (.column .todo) .todo 1 0 (by decide) (by decide) (by decide)
    ⟨2, "c", "", .done, .medium, none, 1, 0, 2⟩ (by decide)).2 (by decide)
  exact ⟨H1.1, H1.2, H2⟩

end Todo
